import Mathlib

/-!
# Verification of the orgmode-google-fuse synchronization core

A shallow embedding, in Lean 4, of the parts of the `orgmode-google-fuse`
source that the specification's testable claims speak about:

* `src/streaming.rs` — the streaming decimal codec (`streaming_add`,
  `streaming_halve`, `streaming_midpoint`) over finite digit streams,
  together with the trailing-zero padding performed by
  `create_position` in `src/write.rs`;
* `src/org/calendar.rs` / `src/org/tasklist.rs` — the `sync` functions
  applying a remote delta batch to the entry store (the store is an
  `evmap`: every key maps to a bag of values; `insert` appends to the
  bag, `update` replaces the bag, `empty` drops the key, `get_one`
  returns the first value of the bag);
* `src/org.rs` — `MaybeIdMap::diff`, in particular the
  longest-increasing-subsequence routine and the move extraction;
* `src/fuse.rs` — the snapshot-table upcalls: file-handle allocation in
  `allocate_stateful_file_handle`, the `read`, `release` and `fsync`
  handlers.

Rust iterators over digits are embedded as `List Nat`; a function that
can panic returns an `Option`, `none` standing for the panic.
-/

namespace OrgFuse

/-! ## Digit streams (src/streaming.rs)

A digit stream is a `List Nat`; positions are fractional, with the radix
point in front of the first digit.  `val l` is the numerator of the
fraction, i.e. `l` read as a base-10 integer, so that the rational value
of the stream `l` is `val l / 10 ^ l.length`. -/

def val (l : List Nat) : Nat := l.foldl (fun a d => 10 * a + d) 0

/-- Lexicographic order on digit streams, as on the corresponding
decimal strings: first differing digit decides; a proper prefix is
smaller than its extension. -/
def lexLt : List Nat → List Nat → Bool
  | [], [] => false
  | [], _ :: _ => true
  | _ :: _, [] => false
  | x :: xs, y :: ys => x < y || (x == y && lexLt xs ys)

/-- The generator state of `streaming_add` (src/streaming.rs lines
22–69), unfolded to the whole output list.  State: `prev` is the
one-digit look-ahead buffer, `nines` the length of the pending run of
9-sums.  A branch of the source that panics (`unreachable!` on streams
of different length, or on a digit sum above 18) yields `none`.
Emission order follows the source: a digit leaving `prev` is emitted
first, then the pending run flushes as `9`s (no carry) or `0`s (carry),
then the loop resumes. -/
def addGo : Option Nat → Nat → List Nat → List Nat → Option (List Nat)
  | prev, nines, x :: xs, y :: ys =>
    if x + y ≤ 8 then
      match prev with
      | none => addGo (some (x + y)) nines xs ys
      | some p =>
        (addGo (some (x + y)) 0 xs ys).map
          (fun rest => p :: (List.replicate nines 9 ++ rest))
    else if x + y = 9 then
      addGo prev (nines + 1) xs ys
    else if x + y ≤ 18 then
      (addGo (some ((x + y) % 10)) 0 xs ys).map
        (fun rest => (prev.getD 0 + 1) :: (List.replicate nines 0 ++ rest))
    else none
  | prev, nines, [], [] =>
    some (match prev with
          | none => []
          | some p => p :: List.replicate nines 9)
  | _, _, _, _ => none

/-- `streaming_add` of src/streaming.rs on finite digit streams.
`none` models the `unreachable!("x and y must have the same length")`
panic. -/
def streaming_add (x y : List Nat) : Option (List Nat) := addGo none 0 x y

/-- The generator of `streaming_halve` (src/streaming.rs lines 71–90):
digit-wise halving with a carry bit, flushing a final `5` iff the last
carry is set. -/
def halveGo : Bool → List Nat → List Nat
  | carry, [] => if carry then [5] else []
  | carry, x :: xs => (x / 2 + if carry then 5 else 0) :: halveGo (x % 2 == 1) xs

def streaming_halve (x : List Nat) : List Nat := halveGo false x

/-- `streaming_midpoint(x, y) = streaming_halve(streaming_add(x, y))`
(src/streaming.rs line 15). -/
def streaming_midpoint (x y : List Nat) : Option (List Nat) :=
  (streaming_add x y).map streaming_halve

/-- The call shape of `create_position` (src/write.rs lines 373–387):
before calling `streaming_midpoint`, each stream is chained with
`repeat_n(0, other.len().saturating_sub(self.len()))`, i.e. the shorter
stream is padded with trailing zeros to the common length. -/
def padded_midpoint (p n : List Nat) : Option (List Nat) :=
  streaming_midpoint
    (p ++ List.replicate (n.length - p.length) 0)
    (n ++ List.replicate (p.length - n.length) 0)

/-- The padded addition underlying `padded_midpoint`. -/
def padded_add (p n : List Nat) : Option (List Nat) :=
  streaming_add
    (p ++ List.replicate (n.length - p.length) 0)
    (n ++ List.replicate (p.length - n.length) 0)

/-! ### Arithmetic lemmas about `val` -/

theorem foldl_val (a : Nat) (l : List Nat) :
    l.foldl (fun a d => 10 * a + d) a = a * 10 ^ l.length + val l := by
  induction l generalizing a with
  | nil => simp [val]
  | cons d l ih =>
    simp only [List.foldl_cons, List.length_cons, val, Nat.mul_zero, Nat.zero_add] at *
    rw [ih (10 * a + d), ih d]
    ring

theorem val_cons (d : Nat) (l : List Nat) :
    val (d :: l) = d * 10 ^ l.length + val l := by
  simpa [val] using foldl_val d l

theorem val_append (u v : List Nat) :
    val (u ++ v) = val u * 10 ^ v.length + val v := by
  induction u with
  | nil => simp [val]
  | cons d u ih =>
    rw [List.cons_append, val_cons, val_cons, ih]
    simp [pow_add]
    ring

theorem val_nil : val [] = 0 := rfl

theorem val_lt (l : List Nat) (h : ∀ d ∈ l, d ≤ 9) : val l < 10 ^ l.length := by
  induction l with
  | nil => simp [val]
  | cons d l ih =>
    rw [val_cons]
    have hd : d ≤ 9 := h d (by simp)
    have hl : val l < 10 ^ l.length := ih (fun d hd => h d (by simp [hd]))
    have : d * 10 ^ l.length ≤ 9 * 10 ^ l.length :=
      Nat.mul_le_mul_right _ hd
    calc d * 10 ^ l.length + val l < d * 10 ^ l.length + 10 ^ l.length := by omega
      _ = (d + 1) * 10 ^ l.length := by ring
      _ ≤ 10 * 10 ^ l.length := Nat.mul_le_mul_right _ (by omega)
      _ = 10 ^ (l.length + 1) := by rw [pow_succ]; ring
      _ = 10 ^ (d :: l).length := by simp

theorem val_replicate_nine (n : Nat) :
    val (List.replicate n 9) + 1 = 10 ^ n := by
  induction n with
  | zero => simp [val]
  | succ n ih =>
    rw [List.replicate_succ, val_cons]
    simp only [List.length_replicate]
    rw [pow_succ]
    omega

theorem val_replicate_zero (n : Nat) : val (List.replicate n 0) = 0 := by
  induction n with
  | zero => simp [val]
  | succ n ih => rw [List.replicate_succ, val_cons, ih]; simp

/-! ### Behaviour of `streaming_add` on equal-length digit streams -/

example : streaming_add [5] [6] = some [1, 1] := by decide
example : streaming_add [0, 9, 0] [9, 0, 3] = some [3, 9, 9] := by decide
example : streaming_add [0, 9, 9, 9, 9] [0, 9, 9, 9, 9] = some [1, 9, 9, 9, 8] := by decide
example : streaming_add [1] [] = none := by decide

/-- Main invariant of the `streaming_add` generator, entered with a
buffered digit `p ≤ 8` and `nines` pending nine-sums: on equal-length
decimal streams it terminates without panicking and computes exact
digit-string addition of the remaining streams onto the prefix
`p :: 9…9`. -/
theorem addGo_spec : ∀ (xs ys : List Nat) (p nines : Nat),
    xs.length = ys.length → (∀ d ∈ xs, d ≤ 9) → (∀ d ∈ ys, d ≤ 9) → p ≤ 8 →
    ∃ out, addGo (some p) nines xs ys = some out ∧
      out.length = 1 + nines + xs.length ∧
      val out + 10 ^ xs.length =
        (p + 1) * 10 ^ nines * 10 ^ xs.length + val xs + val ys ∧
      ∀ d ∈ out, d ≤ 9 := by
  intro xs
  induction xs with
  | nil =>
    intro ys p nines hlen hx hy hp
    have hys : ys = [] := List.length_eq_zero.mp (by simpa using hlen.symm)
    subst hys
    refine ⟨p :: List.replicate nines 9, by simp [addGo], ?_, ?_, ?_⟩
    · simp only [List.length_cons, List.length_replicate, List.length_nil]; omega
    · have h9 := val_replicate_nine nines
      rw [val_cons, val_nil]
      simp only [List.length_replicate, List.length_nil, pow_zero]
      zify at h9 ⊢
      linear_combination h9
    · intro d hd
      rcases List.mem_cons.mp hd with h | h
      · omega
      · have := List.eq_of_mem_replicate h; omega
  | cons x xs ih =>
    intro ys p nines hlen hx hy hp
    rcases ys with _ | ⟨y, ys⟩
    · simp at hlen
    have hx9 : x ≤ 9 := hx x (by simp)
    have hy9 : y ≤ 9 := hy y (by simp)
    have hxs : ∀ d ∈ xs, d ≤ 9 := fun d hd => hx d (by simp [hd])
    have hys : ∀ d ∈ ys, d ≤ 9 := fun d hd => hy d (by simp [hd])
    have hlen' : xs.length = ys.length := by simpa using hlen
    have hysl : ys.length = xs.length := hlen'.symm
    by_cases h8 : x + y ≤ 8
    · -- sum at most 8: emit `p`, flush pending nines as 9s, buffer the sum
      obtain ⟨rest, hresteq, hrestlen, hrestval, hrestd⟩ :=
        ih ys (x + y) 0 hlen' hxs hys h8
      refine ⟨p :: (List.replicate nines 9 ++ rest), ?_, ?_, ?_, ?_⟩
      · simp only [addGo, if_pos h8, hresteq, Option.map_some']
      · simp only [List.length_cons, List.length_append, List.length_replicate, hrestlen]
        omega
      · have h9 := val_replicate_nine nines
        rw [val_cons, List.length_append, List.length_replicate, val_append,
          hrestlen, val_cons, val_cons, hysl]
        simp only [List.length_cons]
        zify at h9 hrestval ⊢
        linear_combination (10 * (10 : ℤ) ^ xs.length) * h9 + hrestval
      · intro d hd
        rcases List.mem_cons.mp hd with h | h
        · omega
        · rcases List.mem_append.mp h with h | h
          · have := List.eq_of_mem_replicate h; omega
          · exact hrestd d h
    · by_cases h9 : x + y = 9
      · -- sum exactly 9: extend the pending run
        obtain ⟨out, houteq, houtlen, houtval, houtd⟩ :=
          ih ys p (nines + 1) hlen' hxs hys hp
        refine ⟨out, ?_, ?_, ?_, houtd⟩
        · simp only [addGo, if_neg h8, if_pos h9, houteq]
        · rw [houtlen, List.length_cons]; omega
        · rw [val_cons, val_cons, hysl]
          simp only [List.length_cons]
          zify at h9 houtval ⊢
          linear_combination houtval - ((10 : ℤ) ^ xs.length) * h9
      · -- sum 10..18: emit the carried digit, flush pending nines as 0s
        have h18 : x + y ≤ 18 := by omega
        have hm8 : (x + y) % 10 ≤ 8 := by omega
        have hmod : (x + y) % 10 + 10 = x + y := by omega
        obtain ⟨rest, hresteq, hrestlen, hrestval, hrestd⟩ :=
          ih ys ((x + y) % 10) 0 hlen' hxs hys hm8
        refine ⟨(p + 1) :: (List.replicate nines 0 ++ rest), ?_, ?_, ?_, ?_⟩
        · simp only [addGo, if_neg h8, if_neg h9, if_pos h18, hresteq,
            Option.map_some', Option.getD_some]
        · simp only [List.length_cons, List.length_append, List.length_replicate, hrestlen]
          omega
        · rw [val_cons, List.length_append, List.length_replicate, val_append,
            val_replicate_zero, hrestlen, val_cons, val_cons, hysl]
          simp only [List.length_cons]
          zify at hmod hrestval ⊢
          linear_combination hrestval + ((10 : ℤ) ^ xs.length) * hmod
        · intro d hd
          rcases List.mem_cons.mp hd with h | h
          · omega
          · rcases List.mem_append.mp h with h | h
            · have := List.eq_of_mem_replicate h; omega
            · exact hrestd d h

/-! ### Behaviour of `streaming_halve` -/

example : streaming_halve [1, 1] = [0, 5, 5] := by decide
example : streaming_halve [0, 0, 0, 1, 1] = [0, 0, 0, 0, 5, 5] := by decide

/-- The halving generator computes exact division by two: on digit
input of value `V` (including the carry-in bit at weight `10^length`),
the output has the same length and value `V / 2` when `V` is even, and
one extra digit with value `5 * V` (the trailing `5`) when `V` is
odd. -/
theorem halveGo_spec : ∀ (l : List Nat) (c : Bool), (∀ d ∈ l, d ≤ 9) →
    (∀ d ∈ halveGo c l, d ≤ 9) ∧
    (((cond c 1 0) * 10 ^ l.length + val l) % 2 = 0 →
        (halveGo c l).length = l.length ∧
        2 * val (halveGo c l) = (cond c 1 0) * 10 ^ l.length + val l) ∧
    (((cond c 1 0) * 10 ^ l.length + val l) % 2 = 1 →
        (halveGo c l).length = l.length + 1 ∧
        val (halveGo c l) = 5 * ((cond c 1 0) * 10 ^ l.length + val l)) := by
  intro l
  induction l with
  | nil =>
    intro c _
    cases c <;> simp [halveGo, val_nil, val_cons]
  | cons x xs ih =>
    intro c hd
    have hx9 : x ≤ 9 := hd x (by simp)
    have hxs : ∀ d ∈ xs, d ≤ 9 := fun d h => hd d (by simp [h])
    obtain ⟨ihd, ihe, iho⟩ := ih (x % 2 == 1) hxs
    have hcond : (cond (x % 2 == 1) 1 0 : Nat) = x % 2 := by
      rcases Nat.mod_two_eq_zero_or_one x with h | h <;> simp [h]
    -- the key decomposition: carry-in plus current digit splits off the
    -- emitted digit (weight 10^|xs|) times two, leaving the tail value
    have hkey : (cond c 1 0) * 10 ^ (x :: xs).length + val (x :: xs) =
        2 * ((x / 2 + cond c 5 0) * 10 ^ xs.length) +
          ((cond (x % 2 == 1) 1 0) * 10 ^ xs.length + val xs) := by
      obtain ⟨q, r, rfl, hr⟩ : ∃ q r, x = 2 * q + r ∧ r < 2 :=
        ⟨x / 2, x % 2, by omega, by omega⟩
      have hq : (2 * q + r) / 2 = q := by omega
      have hr2 : (2 * q + r) % 2 = r := by omega
      rw [val_cons, hcond, hr2, hq]
      simp only [List.length_cons, pow_succ]
      cases c <;> simp only [cond] <;> ring
    have hgo : halveGo c (x :: xs) =
        (x / 2 + cond c 5 0) :: halveGo (x % 2 == 1) xs := by
      cases c <;> simp [halveGo]
    refine ⟨?_, ?_, ?_⟩
    · intro d hmem
      rw [hgo] at hmem
      rcases List.mem_cons.mp hmem with h | h
      · have : x / 2 ≤ 4 := by omega
        cases c <;> simp [cond] at h <;> omega
      · exact ihd d h
    · intro heven
      have htail : ((cond (x % 2 == 1) 1 0) * 10 ^ xs.length + val xs) % 2 = 0 := by
        omega
      obtain ⟨hlen, hval⟩ := ihe htail
      rw [hgo]
      constructor
      · simp [hlen]
      · rw [val_cons, hlen, hkey]
        omega
    · intro hodd
      have htail : ((cond (x % 2 == 1) 1 0) * 10 ^ xs.length + val xs) % 2 = 1 := by
        omega
      obtain ⟨hlen, hval⟩ := iho htail
      rw [hgo]
      constructor
      · simp [hlen]
      · rw [val_cons, hlen, hkey, hval]
        rw [pow_succ]
        ring

/-! ### Lexicographic order versus numeric value -/

/-- On equal-length decimal streams, lexicographic order coincides with
numeric order of the values. -/
theorem lexLt_iff_val_lt : ∀ (u v : List Nat), u.length = v.length →
    (∀ d ∈ u, d ≤ 9) → (∀ d ∈ v, d ≤ 9) →
    (lexLt u v = true ↔ val u < val v) := by
  intro u
  induction u with
  | nil =>
    intro v hlen _ _
    have : v = [] := List.length_eq_zero.mp (by simpa using hlen.symm)
    subst this
    simp [lexLt]
  | cons x xs ih =>
    intro v hlen hu hv
    rcases v with _ | ⟨y, ys⟩
    · simp at hlen
    have hlen' : xs.length = ys.length := by simpa using hlen
    have hx9 : x ≤ 9 := hu x (by simp)
    have hy9 : y ≤ 9 := hv y (by simp)
    have hxs : ∀ d ∈ xs, d ≤ 9 := fun d h => hu d (by simp [h])
    have hys : ∀ d ∈ ys, d ≤ 9 := fun d h => hv d (by simp [h])
    have hvx : val xs < 10 ^ xs.length := val_lt xs hxs
    have hvy : val ys < 10 ^ ys.length := val_lt ys hys
    rw [← hlen'] at hvy
    rw [val_cons, val_cons, ← hlen']
    simp only [lexLt, Bool.or_eq_true, Bool.and_eq_true, decide_eq_true_eq, beq_iff_eq]
    constructor
    · rintro (h | ⟨rfl, h⟩)
      · have : (x + 1) * 10 ^ xs.length ≤ y * 10 ^ xs.length :=
          Nat.mul_le_mul_right _ (by omega)
        nlinarith
      · have := (ih ys hlen' hxs hys).mp h
        omega
    · intro h
      rcases Nat.lt_trichotomy x y with hxy | hxy | hxy
      · exact Or.inl hxy
      · subst hxy
        exact Or.inr ⟨rfl, (ih ys hlen' hxs hys).mpr (by omega)⟩
      · exfalso
        have : (y + 1) * 10 ^ xs.length ≤ x * 10 ^ xs.length :=
          Nat.mul_le_mul_right _ (by omega)
        nlinarith

/-- Comparing a length-`n` stream with a length-`n+1` stream: the
shorter is lexicographically smaller iff ten times its value does not
exceed the longer one's value (the boundary case is the proper
prefix). -/
theorem lexLt_short_long : ∀ (u w : List Nat), w.length = u.length + 1 →
    (∀ d ∈ u, d ≤ 9) → (∀ d ∈ w, d ≤ 9) →
    (lexLt u w = true ↔ 10 * val u ≤ val w) := by
  intro u
  induction u with
  | nil =>
    intro w hlen _ _
    rcases w with _ | ⟨d, w⟩
    · simp at hlen
    simp [lexLt, val_nil]
  | cons x xs ih =>
    intro w hlen hu hw
    rcases w with _ | ⟨y, ys⟩
    · simp at hlen
    have hlen' : ys.length = xs.length + 1 := by simpa using hlen
    have hx9 : x ≤ 9 := hu x (by simp)
    have hy9 : y ≤ 9 := hw y (by simp)
    have hxs : ∀ d ∈ xs, d ≤ 9 := fun d h => hu d (by simp [h])
    have hys : ∀ d ∈ ys, d ≤ 9 := fun d h => hw d (by simp [h])
    have hvx : val xs < 10 ^ xs.length := val_lt xs hxs
    have hvy : val ys < 10 ^ ys.length := val_lt ys hys
    rw [hlen'] at hvy
    rw [val_cons, val_cons, hlen']
    simp only [lexLt, Bool.or_eq_true, Bool.and_eq_true, decide_eq_true_eq, beq_iff_eq]
    rw [pow_succ] at hvy ⊢
    constructor
    · rintro (h | ⟨rfl, h⟩)
      · have : (x + 1) * (10 ^ xs.length * 10) ≤ y * (10 ^ xs.length * 10) :=
          Nat.mul_le_mul_right _ (by omega)
        nlinarith
      · have := (ih ys hlen' hxs hys).mp h
        nlinarith
    · intro h
      rcases Nat.lt_trichotomy x y with hxy | hxy | hxy
      · exact Or.inl hxy
      · subst hxy
        refine Or.inr ⟨rfl, (ih ys hlen' hxs hys).mpr ?_⟩
        nlinarith
      · exfalso
        have : (y + 1) * (10 ^ xs.length * 10) ≤ x * (10 ^ xs.length * 10) :=
          Nat.mul_le_mul_right _ (by omega)
        nlinarith

/-- Comparing a length-`n+1` stream with a length-`n` stream: the
longer is lexicographically smaller iff its value is strictly below ten
times the shorter one's value. -/
theorem lexLt_long_short : ∀ (u w : List Nat), w.length = u.length + 1 →
    (∀ d ∈ u, d ≤ 9) → (∀ d ∈ w, d ≤ 9) →
    (lexLt w u = true ↔ val w < 10 * val u) := by
  intro u
  induction u with
  | nil =>
    intro w hlen _ _
    rcases w with _ | ⟨d, w⟩
    · simp at hlen
    simp [lexLt, val_nil]
  | cons x xs ih =>
    intro w hlen hu hw
    rcases w with _ | ⟨y, ys⟩
    · simp at hlen
    have hlen' : ys.length = xs.length + 1 := by simpa using hlen
    have hx9 : x ≤ 9 := hu x (by simp)
    have hy9 : y ≤ 9 := hw y (by simp)
    have hxs : ∀ d ∈ xs, d ≤ 9 := fun d h => hu d (by simp [h])
    have hys : ∀ d ∈ ys, d ≤ 9 := fun d h => hw d (by simp [h])
    have hvx : val xs < 10 ^ xs.length := val_lt xs hxs
    have hvy : val ys < 10 ^ ys.length := val_lt ys hys
    rw [hlen'] at hvy
    rw [val_cons, val_cons, hlen']
    simp only [lexLt, Bool.or_eq_true, Bool.and_eq_true, decide_eq_true_eq, beq_iff_eq]
    rw [pow_succ] at hvy ⊢
    constructor
    · rintro (h | ⟨rfl, h⟩)
      · have : (y + 1) * (10 ^ xs.length * 10) ≤ x * (10 ^ xs.length * 10) :=
          Nat.mul_le_mul_right _ (by omega)
        nlinarith
      · have := (ih ys hlen' hxs hys).mp h
        nlinarith
    · intro h
      rcases Nat.lt_trichotomy y x with hxy | hxy | hxy
      · exact Or.inl hxy
      · subst hxy
        refine Or.inr ⟨rfl, (ih ys hlen' hxs hys).mpr ?_⟩
        nlinarith
      · exfalso
        have : (x + 1) * (10 ^ xs.length * 10) ≤ y * (10 ^ xs.length * 10) :=
          Nat.mul_le_mul_right _ (by omega)
        nlinarith

/-! ## Claim C1 — midpoint lies strictly between its endpoints

The claim quantifies over *all* equal-length digit strings `a < b`.  It
fails when the leading digits of `a` and `b` are large: the carry out of
the leading place is emitted as an extra digit at the *front* of the
stream, which shifts the radix point, so the halved result can fall
below `a`.  `midpoint("5", "6")` is `"055"`, and `"055" < "5"`
lexicographically. -/

/-- C1, counterexample: for the equal-length digit strings a = "5" and
b = "6" with a < b, midpoint(a, b) = "055" is NOT strictly between a
and b: it is lexicographically below a.  (The digit-sum 11 carries out
of the leading place; `streaming_add` emits the carry as a leading
digit, shifting the radix point.) -/
theorem c1_counterexample :
    lexLt [5] [6] = true ∧
    streaming_midpoint [5] [6] = some [0, 5, 5] ∧
    lexLt [5] [0, 5, 5] = false ∧
    lexLt [0, 5, 5] [5] = true := by decide

/-- C1, amended: for equal-length nonempty decimal digit strings
`a < b` whose leading digits sum to at most 8 (in particular whenever
both strings begin with `0`, as all stored position strings do),
`midpoint(a, b) = halve(add(a, b))` is defined and lies strictly
between `a` and `b` lexicographically, so it never equals either
endpoint. -/
theorem c1_midpoint_strictly_between
    (x y : Nat) (xs ys : List Nat)
    (hlen : xs.length = ys.length)
    (hdx : ∀ d ∈ x :: xs, d ≤ 9) (hdy : ∀ d ∈ y :: ys, d ≤ 9)
    (hhead : x + y ≤ 8)
    (hab : lexLt (x :: xs) (y :: ys) = true) :
    ∃ m, streaming_midpoint (x :: xs) (y :: ys) = some m ∧
      lexLt (x :: xs) m = true ∧ lexLt m (y :: ys) = true := by
  have hxs : ∀ d ∈ xs, d ≤ 9 := fun d h => hdx d (by simp [h])
  have hys : ∀ d ∈ ys, d ≤ 9 := fun d h => hdy d (by simp [h])
  have hxy_len : (x :: xs).length = (y :: ys).length := by simp [hlen]
  -- the sum digit-string: exact addition, same length as the inputs
  obtain ⟨s, hseq, hslen, hsval, hsd⟩ := addGo_spec xs ys (x + y) 0 hlen hxs hys hhead
  have haddeq : streaming_add (x :: xs) (y :: ys) = some s := by
    unfold streaming_add
    simp only [addGo, if_pos hhead]
    exact hseq
  have hsval' : val s = val (x :: xs) + val (y :: ys) := by
    rw [val_cons, val_cons, ← hlen]
    simp only [pow_zero, mul_one] at hsval
    zify at hsval ⊢
    linear_combination hsval
  have hslen' : s.length = (x :: xs).length := by
    simp only [List.length_cons]
    omega
  -- numeric comparison of the endpoints
  have hAB : val (x :: xs) < val (y :: ys) :=
    (lexLt_iff_val_lt (x :: xs) (y :: ys) hxy_len hdx hdy).mp hab
  -- halving the sum
  obtain ⟨hmd, hme, hmo⟩ := halveGo_spec s false hsd
  simp only [cond, Bool.false_eq_true, if_false, zero_mul, zero_add] at hme hmo
  have hmeq : streaming_midpoint (x :: xs) (y :: ys) = some (halveGo false s) := by
    rw [streaming_midpoint, haddeq, Option.map_some']
    rfl
  rcases Nat.even_or_odd (val s) with he | ho
  · -- A + B even: the midpoint has the same length and value (A+B)/2
    obtain ⟨hlen2, hval2⟩ := hme (Nat.even_iff.mp he)
    have hmlen : (halveGo false s).length = (x :: xs).length := by
      rw [hlen2, hslen']
    refine ⟨halveGo false s, hmeq, ?_, ?_⟩
    · rw [lexLt_iff_val_lt (x :: xs) (halveGo false s) hmlen.symm hdx hmd]
      omega
    · rw [lexLt_iff_val_lt (halveGo false s) (y :: ys) (hmlen.trans hxy_len) hmd hdy]
      omega
  · -- A + B odd: the midpoint has one extra digit and value 5 * (A+B)
    obtain ⟨hlen2, hval2⟩ := hmo (Nat.odd_iff.mp ho)
    have hmlen : (halveGo false s).length = (x :: xs).length + 1 := by
      rw [hlen2, hslen']
    refine ⟨halveGo false s, hmeq, ?_, ?_⟩
    · rw [lexLt_short_long (x :: xs) (halveGo false s) hmlen hdx hmd]
      omega
    · rw [lexLt_long_short (y :: ys) (halveGo false s) (by rw [hmlen, hxy_len]) hdy hmd]
      omega

/-- C1 witness: the amended theorem applied at a = "14", b = "21":
midpoint is "175" and 14 < 175 < 21 in string order. -/
theorem c1_midpoint_strictly_between_witness :
    ∃ m, streaming_midpoint [1, 4] [2, 1] = some m ∧
      lexLt [1, 4] m = true ∧ lexLt m [2, 1] = true :=
  c1_midpoint_strictly_between 1 2 [4] [1] (by decide)
    (by decide) (by decide) (by decide) (by decide)

/-! ## Claim C5 — totality of `add` and the trailing-zero padding

`streaming_add` itself hits
`unreachable!("x and y must have the same length")` as soon as one
stream runs out before the other: it is *not* total on unequal-length
streams.  The padding belongs to the caller: `create_position`
(src/write.rs) chains each stream with
`repeat_n(0, other.len().saturating_sub(self.len()))` before invoking
the codec, and on those equal-length streams `add` is total. -/

/-- On equal-length decimal streams the generator never reaches a
panicking branch, whatever the buffered state. -/
theorem addGo_total : ∀ (xs ys : List Nat) (prev : Option Nat) (nines : Nat),
    xs.length = ys.length → (∀ d ∈ xs, d ≤ 9) → (∀ d ∈ ys, d ≤ 9) →
    (addGo prev nines xs ys).isSome = true := by
  intro xs
  induction xs with
  | nil =>
    intro ys prev nines hlen _ _
    have : ys = [] := List.length_eq_zero.mp (by simpa using hlen.symm)
    subst this
    simp [addGo]
  | cons x xs ih =>
    intro ys prev nines hlen hx hy
    rcases ys with _ | ⟨y, ys⟩
    · simp at hlen
    have hx9 : x ≤ 9 := hx x (by simp)
    have hy9 : y ≤ 9 := hy y (by simp)
    have hxs : ∀ d ∈ xs, d ≤ 9 := fun d h => hx d (by simp [h])
    have hys : ∀ d ∈ ys, d ≤ 9 := fun d h => hy d (by simp [h])
    have hlen' : xs.length = ys.length := by simpa using hlen
    by_cases h8 : x + y ≤ 8
    · cases prev with
      | none => simpa [addGo, if_pos h8] using ih ys (some (x + y)) nines hlen' hxs hys
      | some p =>
        have := ih ys (some (x + y)) 0 hlen' hxs hys
        simp only [addGo, if_pos h8]
        rcases Option.isSome_iff_exists.mp this with ⟨rest, hrest⟩
        simp [hrest]
    · by_cases h9 : x + y = 9
      · simpa [addGo, if_neg h8, if_pos h9] using ih ys prev (nines + 1) hlen' hxs hys
      · have h18 : x + y ≤ 18 := by omega
        have := ih ys (some ((x + y) % 10)) 0 hlen' hxs hys
        simp only [addGo, if_neg h8, if_neg h9, if_pos h18]
        rcases Option.isSome_iff_exists.mp this with ⟨rest, hrest⟩
        simp [hrest]

/-- C5, counterexample: `add` is not total on digit streams of unequal
length — the length-mismatch branch is reached and the code panics
(modelled by `none`), both when one stream is empty and in the general
unequal case. -/
theorem c5_counterexample :
    streaming_add [1] [] = none ∧ streaming_add [1] [2, 2] = none := by decide

/-- C5, amended: `streaming_add` panics on streams of unequal length;
totality holds at its call sites because `create_position` pads the
shorter stream with trailing zeros to the common length
(`padded_add`), and on the resulting equal-length decimal streams
`add` is defined for every input. -/
theorem c5_padded_add_total (p n : List Nat)
    (hp : ∀ d ∈ p, d ≤ 9) (hn : ∀ d ∈ n, d ≤ 9) :
    (padded_add p n).isSome = true := by
  unfold padded_add
  apply addGo_total
  · simp only [List.length_append, List.length_replicate]
    omega
  · intro d hd
    rcases List.mem_append.mp hd with h | h
    · exact hp d h
    · have := List.eq_of_mem_replicate h; omega
  · intro d hd
    rcases List.mem_append.mp hd with h | h
    · exact hn d h
    · have := List.eq_of_mem_replicate h; omega

/-- C5 witness: the amended theorem at the unequal-length pair
("1", "22") — after padding, add succeeds. -/
theorem c5_padded_add_total_witness :
    (padded_add [1] [2, 2]).isSome = true :=
  c5_padded_add_total [1] [2, 2] (by decide) (by decide)

/-! ## Snapshot / write-buffer table (src/fuse.rs)

The table `pending_fh : HashMap<(Inode, Pid), InstanceState>` is
embedded as an association list keyed by `(ino, pid)`.  Only the
`file_handles` vector of each `InstanceState` matters to the
handle-allocation and release claims; the captured org tree and write
buffer of a row are treated separately by the fsync model below. -/

abbrev SnapshotTable := List ((Nat × Nat) × List Nat)

/-- The handles currently held by `pid` across all rows
(`guard.iter().filter(pid == *p).flat_map(file_handles)` in
`allocate_stateful_file_handle`). -/
def heldHandles (table : SnapshotTable) (pid : Nat) : List Nat :=
  (table.filter (fun r => r.1.2 == pid)).flatMap (fun r => r.2)

/-- The free-handle search of `allocate_stateful_file_handle`
(src/fuse.rs lines 221–230): the sorted handles are chained with a
trailing `0`, zipped with `1, 2, …`, and the first position where the
handle differs from its index is returned.  `none` models the `unwrap`
panic of an empty `find_map` (never reached: the trailing `0` always
mismatches). -/
def findFh : List Nat → Nat → Option Nat
  | [], _ => none
  | fh :: rest, i => if fh ≠ i then some i else findFh rest (i + 1)

def allocate_fh (table : SnapshotTable) (pid : Nat) : Option Nat :=
  findFh ((heldHandles table pid).insertionSort (· ≤ ·) ++ [0]) 1

/-- `guard.entry((ino, pid)).or_insert(InstanceState::default()).file_handles.push(fh)`:
append the handle to the row of `(ino, pid)`, creating the row if
missing. -/
def pushHandle : SnapshotTable → Nat × Nat → Nat → SnapshotTable
  | [], key, fh => [(key, [fh])]
  | r :: rs, key, fh =>
    if r.1 = key then (r.1, r.2 ++ [fh]) :: rs else r :: pushHandle rs key fh

/-- The stateful part of `allocate_stateful_file_handle` for a file
inode (for a non-file inode the function returns handle `0` and leaves
the table unchanged). -/
def allocate_stateful_file_handle (table : SnapshotTable) (ino pid : Nat) :
    Nat × SnapshotTable :=
  match allocate_fh table pid with
  | some fh => (fh, pushHandle table (ino, pid) fh)
  | none => (0, table)

/-- `release` (src/fuse.rs lines 815–862): from pid `0` (kernel
context) the handle is dropped from every row *of the released inode*;
from a real pid only from the `(ino, pid)` row.  Afterwards every row
whose handle list became empty is dropped. -/
def releaseModel (table : SnapshotTable) (ino fh pid : Nat) : SnapshotTable :=
  let t1 :=
    if pid == 0 then
      table.map (fun r => if r.1.1 == ino then (r.1, r.2.filter (· != fh)) else r)
    else
      table.map (fun r => if r.1 == (ino, pid) then (r.1, r.2.filter (· != fh)) else r)
  t1.filter (fun r => !r.2.isEmpty)

/-! ### Claim C7 — the allocated handle is the least free one -/

/-- `findFh` on a strictly sorted list of handles all at least `i`
returns the least integer `≥ i` missing from the list. -/
theorem findFh_mex : ∀ (l : List Nat) (i : Nat), 1 ≤ i →
    l.Pairwise (· < ·) → (∀ e ∈ l, i ≤ e) →
    ∃ m, findFh (l ++ [0]) i = some m ∧ m ∉ l ∧ i ≤ m ∧
      ∀ k, i ≤ k → k < m → k ∈ l := by
  intro l
  induction l with
  | nil =>
    intro i hi _ _
    exact ⟨i, by simp [findFh]; omega, by simp, le_refl i, by omega⟩
  | cons f rest ih =>
    intro i hi hsort hge
    have hf : i ≤ f := hge f (by simp)
    have hrest_gt : ∀ e ∈ rest, f < e := fun e he => (List.pairwise_cons.mp hsort).1 e he
    by_cases hfi : f = i
    · subst hfi
      have hge' : ∀ e ∈ rest, f + 1 ≤ e := fun e he => hrest_gt e he
      obtain ⟨m, hm, hmem, hle, hall⟩ :=
        ih (f + 1) (by omega) (List.pairwise_cons.mp hsort).2 hge'
      refine ⟨m, ?_, ?_, by omega, ?_⟩
      · simp only [List.cons_append, findFh, if_neg (by omega : ¬f ≠ f)]
        exact hm
      · intro hmem'
        rcases List.mem_cons.mp hmem' with h | h
        · omega
        · exact hmem h
      · intro k hk hkm
        rcases Nat.eq_or_lt_of_le hk with h | h
        · exact List.mem_cons.mpr (Or.inl h.symm)
        · exact List.mem_cons.mpr (Or.inr (hall k (by omega) hkm))
    · refine ⟨i, ?_, ?_, le_refl i, by omega⟩
      · simp only [List.cons_append, findFh, if_pos (by omega : f ≠ i)]
      · intro hmem
        rcases List.mem_cons.mp hmem with h | h
        · omega
        · have := hge _ (List.mem_cons.mpr (Or.inr h))
          have := hrest_gt _ h
          omega

/-- The pushed handle is recorded in the `(ino, pid)` row. -/
theorem pushHandle_mem : ∀ (t : SnapshotTable) (key : Nat × Nat) (fh : Nat),
    ∃ row ∈ pushHandle t key fh, row.1 = key ∧ fh ∈ row.2 := by
  intro t key fh
  induction t with
  | nil => exact ⟨(key, [fh]), by simp [pushHandle]⟩
  | cons r rs ih =>
    by_cases h : r.1 = key
    · exact ⟨(r.1, r.2 ++ [fh]), by simp [pushHandle, h]⟩
    · obtain ⟨row, hrow, hkey, hfh⟩ := ih
      exact ⟨row, by simp [pushHandle, h, hrow], hkey, hfh⟩

/-- C7: on every open of a file inode, if the handles held by the
calling pid are pairwise distinct and positive (the invariant the
allocator maintains), the allocated handle is the smallest positive
integer not currently held by that pid across all inodes, and it is
recorded in the `(ino, pid)` row. -/
theorem c7_allocate_least_free (table : SnapshotTable) (ino pid : Nat)
    (hnodup : (heldHandles table pid).Nodup)
    (hpos : ∀ h ∈ heldHandles table pid, 1 ≤ h) :
    ∃ fh t', allocate_stateful_file_handle table ino pid = (fh, t') ∧
      fh ∉ heldHandles table pid ∧ 1 ≤ fh ∧
      (∀ k, 1 ≤ k → k < fh → k ∈ heldHandles table pid) ∧
      ∃ row ∈ t', row.1 = (ino, pid) ∧ fh ∈ row.2 := by
  set held := heldHandles table pid with hheld
  set s := held.insertionSort (· ≤ ·) with hs
  have hperm : List.Perm s held := List.perm_insertionSort (· ≤ ·) held
  have hsorted : s.Sorted (· ≤ ·) := List.sorted_insertionSort (· ≤ ·) held
  have hnodup' : s.Nodup := hperm.nodup_iff.mpr hnodup
  have hpair : s.Pairwise (· < ·) := List.Sorted.lt_of_le hsorted hnodup'
  have hge : ∀ e ∈ s, 1 ≤ e := fun e he => hpos e (hperm.mem_iff.mp he)
  obtain ⟨m, hm, hmem, hle, hall⟩ := findFh_mex s 1 (le_refl 1) hpair hge
  obtain ⟨row, hrow, hkey, hfh⟩ := pushHandle_mem table (ino, pid) m
  refine ⟨m, pushHandle table (ino, pid) m, ?_, ?_, hle, ?_, row, hrow, hkey, hfh⟩
  · rw [allocate_stateful_file_handle, allocate_fh, ← hheld, ← hs, hm]
  · exact fun hmm => hmem (hperm.mem_iff.mpr hmm)
  · intro k hk hkm
    exact hperm.mem_iff.mp (hall k hk hkm)

/-- C7 witness: with pid 7 holding handles 1 and 3, open allocates
handle 2 and records it. -/
theorem c7_allocate_least_free_witness :
    ∃ fh t', allocate_stateful_file_handle [((4, 7), [1, 3])] 5 7 = (fh, t') ∧
      fh ∉ heldHandles [((4, 7), [1, 3])] 7 ∧ 1 ≤ fh ∧
      (∀ k, 1 ≤ k → k < fh → k ∈ heldHandles [((4, 7), [1, 3])] 7) ∧
      ∃ row ∈ t', row.1 = (5, 7) ∧ fh ∈ row.2 :=
  c7_allocate_least_free [((4, 7), [1, 3])] 5 7 (by decide) (by decide)

/-! ### Claim C9 — release from pid 0 -/

/-- C9, counterexample: pid-0 release of handle 3 on inode 4 leaves
handle 3 in the row of inode 5 — the kernel-context scrub in the source
filters on `*i == ino` and touches only rows of the *released* inode,
not every row of the table. -/
theorem c9_counterexample :
    releaseModel [((4, 7), [3]), ((5, 7), [3])] 4 3 0 = [((5, 7), [3])] ∧
    (releaseModel [((4, 7), [3]), ((5, 7), [3])] 4 3 0).any
      (fun r => r.2.contains 3) = true := by decide

/-- C9, amended: after a release upcall from pid 0 for handle `fh` on
inode `ino`, `fh` is absent from the handle list of every remaining row
*of that inode* (for every pid), and every row whose handle list became
empty has been removed from the table.  Rows of other inodes keep their
handles. -/
theorem c9_release_pid0 (table : SnapshotTable) (ino fh : Nat)
    (row : (Nat × Nat) × List Nat)
    (hrow : row ∈ releaseModel table ino fh 0) :
    (row.1.1 = ino → row.2.contains fh = false) ∧ row.2.isEmpty = false := by
  unfold releaseModel at hrow
  simp only [beq_self_eq_true, if_pos] at hrow
  obtain ⟨hmem, hkeep⟩ := List.mem_filter.mp hrow
  constructor
  · intro hino
    obtain ⟨r0, hr0, hmap⟩ := List.mem_map.mp hmem
    have hnotmem : fh ∉ row.2 := by
      intro hfh
      by_cases h : r0.1.1 = ino
      · rw [if_pos (by simpa using h)] at hmap
        subst hmap
        have h2 := (List.mem_filter.mp hfh).2
        simp at h2
      · rw [if_neg (by simpa using h)] at hmap
        subst hmap
        exact h hino
    simpa using hnotmem
  · simpa using hkeep

/-- C9 witness: releasing handle 3 of inode 4 from pid 0 on a table
with rows for inodes 4 and 5 — the surviving inode-4 row no longer
holds 3 and is nonempty. -/
theorem c9_release_pid0_witness :
    ([5] : List Nat).contains 3 = false ∧ ([5] : List Nat).isEmpty = false :=
  ⟨(c9_release_pid0 [((4, 7), [3, 5]), ((5, 9), [3])] 4 3 ((4, 7), [5])
      (by decide)).1 rfl,
    (c9_release_pid0 [((4, 7), [3, 5]), ((5, 9), [3])] 4 3 ((4, 7), [5])
      (by decide)).2⟩

/-! ### Claim C8 — read without a snapshot row -/

inductive ReadResult where
  | data (bytes : List Nat)
  | einval
  | ebadf
  deriving DecidableEq, Repr

/-- The `read` upcall (src/fuse.rs lines 667–725).  The filesystem
serves the freshly rendered text of the backing calendar (inodes
`4 … 4+|cals|-1`) or task list (the following `|tls|` inodes); the
snapshot table is consulted only to fast-forward a row's cached org
tree, never to decide the reply, so it does not appear in the result.
`EBADF` is produced by the final `else` — when the inode is not a file
inode at all. -/
def fsRead (cals tls : List (List Nat)) (_table : SnapshotTable)
    (ino : Nat) (offset : Int) (size : Nat) (_pid : Nat) : ReadResult :=
  if offset < 0 then .einval
  else
    match
      (if 4 ≤ ino ∧ ino < 4 + cals.length then cals[ino - 4]?
       else if 4 + cals.length ≤ ino ∧ ino < 4 + cals.length + tls.length then
         tls[ino - 4 - cals.length]?
       else none) with
    | none => .ebadf
    | some org =>
      if org.length ≤ offset.toNat then .data []
      else .data ((org.drop offset.toNat).take size)

/-- C8, counterexample: a read at offset 0 on file inode 4 by pid 7,
which holds no snapshot row (the table is empty), returns the rendered
bytes — not `EBADF`. -/
theorem c8_counterexample :
    fsRead [[65]] [] [] 4 0 10 7 = .data [65] ∧
    fsRead [[65]] [] [] 4 0 10 7 ≠ .ebadf := by decide

/-- C8, amended: for every read with a non-negative offset, the call
returns `EBADF` exactly when the inode is not a file inode (backed by
neither a calendar nor a task list); whether the pid holds a snapshot
row for the inode is irrelevant to the reply. -/
theorem c8_read_ebadf_iff (cals tls : List (List Nat)) (table : SnapshotTable)
    (ino : Nat) (offset : Int) (size : Nat) (pid : Nat)
    (hoff : 0 ≤ offset) :
    (fsRead cals tls table ino offset size pid = .ebadf ↔
      ¬ (4 ≤ ino ∧ ino < 4 + cals.length + tls.length)) := by
  unfold fsRead
  rw [if_neg (by omega)]
  by_cases hc : 4 ≤ ino ∧ ino < 4 + cals.length
  · rw [if_pos hc]
    have hidx : ino - 4 < cals.length := by omega
    rw [List.getElem?_eq_getElem hidx]
    constructor
    · intro h
      by_cases hlen : (cals[ino - 4]).length ≤ offset.toNat <;> simp [hlen] at h
    · intro h
      omega
  · rw [if_neg hc]
    by_cases ht : 4 + cals.length ≤ ino ∧ ino < 4 + cals.length + tls.length
    · rw [if_pos ht]
      have hidx : ino - 4 - cals.length < tls.length := by omega
      rw [List.getElem?_eq_getElem hidx]
      constructor
      · intro h
        by_cases hlen : (tls[ino - 4 - cals.length]).length ≤ offset.toNat <;>
          simp [hlen] at h
      · intro h
        omega
    · rw [if_neg ht]
      simp only [true_iff]
      omega

/-- C8 witness: the amended theorem at inode 7 of a filesystem with one
calendar and one task list — inode 7 is past the file range, so the
read returns `EBADF`. -/
theorem c8_read_ebadf_iff_witness :
    fsRead [[65]] [[66]] [] 7 0 1 9 = .ebadf ↔
      ¬ (4 ≤ 7 ∧ 7 < 4 + ([[65]] : List (List Nat)).length +
        ([[66]] : List (List Nat)).length) :=
  c8_read_ebadf_iff [[65]] [[66]] [] 7 0 1 9 (by decide)

/-! ## Entry store (src/org/calendar.rs, src/org/tasklist.rs)

The store behind an `OrgCalendar` / `OrgTaskList` is an `evmap`: a map
from the server id to a *bag* of values.  `WriteHandle::insert` appends
a value to the key's bag (creating the bag when the key is new),
`update` replaces the whole bag by the single value, `empty` removes
the key, and `get_one` returns the first value of the bag.  The store
is embedded as an association list `id → bag`. -/

structure GEvent where
  id : Option String
  etag : Option String
  status : Option String
  summary : Option String
  deriving DecidableEq, Repr

structure GTask where
  id : Option String
  etag : Option String
  deleted : Option Bool
  title : Option String
  position : Option (List Nat)
  deriving DecidableEq, Repr

abbrev Store (V : Type) := List (String × List V)

section StoreOps

variable {V : Type}

/-- `WriteHandle::contains_key`. -/
def storeContains (m : Store V) (k : String) : Bool :=
  m.any (fun r => r.1 == k)

/-- The row of key `k` (first match). -/
def storeFind (m : Store V) (k : String) : Option (String × List V) :=
  m.find? (fun r => r.1 == k)

/-- `ReadHandle::get_one`: the first value of the key's bag. -/
def storeGetOne (m : Store V) (k : String) : Option V :=
  (storeFind m k).bind (fun r => r.2.head?)

/-- `WriteHandle::insert`: append the value to the key's bag, creating
the bag if the key is new. -/
def storeInsertAdd : Store V → String → V → Store V
  | [], k, v => [(k, [v])]
  | r :: rs, k, v =>
    if r.1 = k then (r.1, r.2 ++ [v]) :: rs else r :: storeInsertAdd rs k v

/-- `WriteHandle::update`: replace the key's bag by the single value. -/
def storeUpdate : Store V → String → V → Store V
  | [], k, v => [(k, [v])]
  | r :: rs, k, v =>
    if r.1 = k then (r.1, [v]) :: rs else r :: storeUpdate rs k v

/-- `WriteHandle::empty`: drop the key. -/
def storeEmpty (m : Store V) (k : String) : Store V :=
  m.filter (fun r => r.1 != k)

end StoreOps

/-- One iteration of the loop in `OrgCalendar::sync`
(src/org/calendar.rs lines 56–85): skip id-less events; for a present
id compare the stored first value's etag and skip on a match, tombstone
(`status = "cancelled"`) with a changed etag removes the key, a changed
etag otherwise *appends* to the bag (the source uses `insert`, not
`update`); an absent id is inserted — even when tombstoned.
(The `guard.get_one(id).unwrap()` of the source can only be reached
with a nonempty bag, since every path that creates a key gives it a
value; the `none` fallback below is dead code under that invariant.) -/
def syncCalStep (m : Store GEvent) (e : GEvent) : Store GEvent :=
  match e.id with
  | none => m
  | some id =>
    if storeContains m id then
      match storeGetOne m id with
      | some v =>
        if v.etag = e.etag then m
        else if e.status = some "cancelled" then storeEmpty m id
        else storeInsertAdd m id e
      | none => m
    else storeInsertAdd m id e

/-- `OrgCalendar::sync` over a batch (the wall-clock update and the
final `refresh` do not affect the map contents). -/
def syncCal (m : Store GEvent) (batch : List GEvent) : Store GEvent :=
  batch.foldl syncCalStep m

/-- `bump_position` (src/org/tasklist.rs lines 292–300): every incoming
position is incremented by `10⁻²⁰` through `streaming_add` with the
stream `0×19 ++ [1]`; `none` models the panic of `streaming_add` on a
position whose length differs from 20. -/
def bump_position (t : GTask) : Option GTask :=
  match t.position with
  | none => some t
  | some p =>
    (streaming_add p (List.replicate 19 0 ++ [1])).map
      (fun q => { t with position := some q })

/-- One iteration of the loop in `OrgTaskList::sync`
(src/org/tasklist.rs lines 58–81), after the position bump: skip
id-less tasks; a present id is removed when `deleted == Some(true)` and
otherwise *replaced* (`update` — no etag comparison at all); an absent
id is inserted — even when tombstoned. -/
def syncTaskStep (m : Store GTask) (t : GTask) : Store GTask :=
  match t.id with
  | none => m
  | some id =>
    if storeContains m id then
      if t.deleted = some true then storeEmpty m id else storeUpdate m id t
    else storeInsertAdd m id t

/-- `OrgTaskList::sync` over a batch: each task is position-bumped and
then applied; `none` models a panic inside `bump_position`. -/
def syncTaskRun : Store GTask → List GTask → Option (Store GTask)
  | m, [] => some m
  | m, t :: ts =>
    match bump_position t with
    | none => none
    | some t' => syncTaskRun (syncTaskStep m t') ts

/-! ### Store lemmas -/

section StoreLemmas

variable {V : Type}

theorem storeContains_eq_find_isSome : ∀ (m : Store V) (k : String),
    storeContains m k = (storeFind m k).isSome := by
  intro m k
  induction m with
  | nil => rfl
  | cons r rs ih =>
    by_cases h : r.1 = k
    · simp [storeContains, storeFind, List.find?_cons_of_pos, h]
    · have h' : (r.1 == k) = false := by simpa using h
      simp only [storeContains, List.any_cons, h', Bool.false_or, storeFind]
      rw [List.find?_cons_of_neg _ (by simp [h'])]
      exact ih

theorem storeFind_insertAdd_ne : ∀ (m : Store V) (k k' : String) (v : V), k ≠ k' →
    storeFind (storeInsertAdd m k v) k' = storeFind m k' := by
  intro m k k' v hne
  induction m with
  | nil =>
    simp only [storeInsertAdd, storeFind]
    rw [List.find?_cons_of_neg _ (by simpa using hne)]
  | cons r rs ih =>
    by_cases h : r.1 = k
    · simp only [storeInsertAdd, if_pos h, storeFind]
      rw [List.find?_cons_of_neg _ (by simp [h, hne]),
        List.find?_cons_of_neg _ (by simp [h, hne])]
    · simp only [storeInsertAdd, if_neg h, storeFind]
      by_cases h2 : r.1 = k'
      · rw [List.find?_cons_of_pos _ (by simpa using h2),
          List.find?_cons_of_pos _ (by simpa using h2)]
      · rw [List.find?_cons_of_neg _ (by simpa using h2),
          List.find?_cons_of_neg _ (by simpa using h2)]
        exact ih

theorem storeFind_update_ne : ∀ (m : Store V) (k k' : String) (v : V), k ≠ k' →
    storeFind (storeUpdate m k v) k' = storeFind m k' := by
  intro m k k' v hne
  induction m with
  | nil =>
    simp only [storeUpdate, storeFind]
    rw [List.find?_cons_of_neg _ (by simpa using hne)]
  | cons r rs ih =>
    by_cases h : r.1 = k
    · simp only [storeUpdate, if_pos h, storeFind]
      rw [List.find?_cons_of_neg _ (by simp [h, hne]),
        List.find?_cons_of_neg _ (by simp [h, hne])]
    · simp only [storeUpdate, if_neg h, storeFind]
      by_cases h2 : r.1 = k'
      · rw [List.find?_cons_of_pos _ (by simpa using h2),
          List.find?_cons_of_pos _ (by simpa using h2)]
      · rw [List.find?_cons_of_neg _ (by simpa using h2),
          List.find?_cons_of_neg _ (by simpa using h2)]
        exact ih

theorem storeFind_empty_ne : ∀ (m : Store V) (k k' : String), k ≠ k' →
    storeFind (storeEmpty m k) k' = storeFind m k' := by
  intro m k k' hne
  induction m with
  | nil => rfl
  | cons r rs ih =>
    by_cases h : r.1 = k
    · simp only [storeEmpty, List.filter_cons]
      rw [if_neg (by simpa using h)]
      simp only [storeFind]
      rw [List.find?_cons_of_neg _ (by simp [h, hne])]
      exact ih
    · simp only [storeEmpty, List.filter_cons]
      rw [if_pos (by simpa using h)]
      by_cases h2 : r.1 = k'
      · simp only [storeFind]
        rw [List.find?_cons_of_pos _ (by simpa using h2),
          List.find?_cons_of_pos _ (by simpa using h2)]
      · simp only [storeFind]
        rw [List.find?_cons_of_neg _ (by simpa using h2),
          List.find?_cons_of_neg _ (by simpa using h2)]
        exact ih

theorem storeFind_insertAdd_absent : ∀ (m : Store V) (k : String) (v : V),
    storeContains m k = false →
    storeFind (storeInsertAdd m k v) k = some (k, [v]) := by
  intro m k v habs
  induction m with
  | nil => simp [storeInsertAdd, storeFind, List.find?_cons_of_pos]
  | cons r rs ih =>
    simp only [storeContains, List.any_cons, Bool.or_eq_false_iff] at habs
    have h : r.1 ≠ k := by simpa using habs.1
    simp only [storeInsertAdd, if_neg h, storeFind]
    rw [List.find?_cons_of_neg _ (by simpa using h)]
    exact ih habs.2

theorem storeFind_update_self : ∀ (m : Store V) (k : String) (v : V),
    storeFind (storeUpdate m k v) k = some (k, [v]) := by
  intro m k v
  induction m with
  | nil => simp [storeUpdate, storeFind, List.find?_cons_of_pos]
  | cons r rs ih =>
    by_cases h : r.1 = k
    · simp only [storeUpdate, if_pos h, storeFind]
      rw [List.find?_cons_of_pos _ (by simpa using h), h]
    · simp only [storeUpdate, if_neg h, storeFind]
      rw [List.find?_cons_of_neg _ (by simpa using h)]
      exact ih

theorem storeFind_empty_self : ∀ (m : Store V) (k : String),
    storeFind (storeEmpty m k) k = none := by
  intro m k
  induction m with
  | nil => rfl
  | cons r rs ih =>
    by_cases h : r.1 = k
    · simp only [storeEmpty, List.filter_cons]
      rw [if_neg (by simpa using h)]
      exact ih
    · simp only [storeEmpty, List.filter_cons]
      rw [if_pos (by simpa using h)]
      simp only [storeFind]
      rw [List.find?_cons_of_neg _ (by simpa using h)]
      exact ih

theorem storeUpdate_eq_self : ∀ (m : Store V) (k : String) (v : V),
    storeFind m k = some (k, [v]) → storeUpdate m k v = m := by
  intro m k v hfind
  induction m with
  | nil => simp [storeFind] at hfind
  | cons r rs ih =>
    by_cases h : r.1 = k
    · simp only [storeFind] at hfind
      rw [List.find?_cons_of_pos _ (by simpa using h)] at hfind
      obtain rfl : r = (k, [v]) := by injection hfind
      simp [storeUpdate]
    · simp only [storeFind] at hfind
      rw [List.find?_cons_of_neg _ (by simpa using h)] at hfind
      simp only [storeUpdate, if_neg h]
      rw [ih hfind]

end StoreLemmas

/-! ### Sync lemmas -/

theorem bump_position_id (t t' : GTask) (h : bump_position t = some t') :
    t'.id = t.id ∧ t'.deleted = t.deleted := by
  unfold bump_position at h
  cases hp : t.position with
  | none =>
    rw [hp] at h
    simp only [Option.some.injEq] at h
    subst h
    exact ⟨rfl, rfl⟩
  | some p =>
    rw [hp] at h
    simp only [Option.map_eq_some'] at h
    obtain ⟨q, _, hft⟩ := h
    subst hft
    exact ⟨rfl, rfl⟩

theorem syncCalStep_find_ne (m : Store GEvent) (e : GEvent) (id : String)
    (h : ∀ id', e.id = some id' → id' ≠ id) :
    storeFind (syncCalStep m e) id = storeFind m id := by
  cases he : e.id with
  | none => simp [syncCalStep, he]
  | some id' =>
    have hne : id' ≠ id := h id' he
    by_cases hc : storeContains m id'
    · cases hv : storeGetOne m id' with
      | none => simp [syncCalStep, he, hc, hv]
      | some v =>
        by_cases het : v.etag = e.etag
        · simp [syncCalStep, he, hc, hv, het]
        · by_cases hst : e.status = some "cancelled"
          · simp [syncCalStep, he, hc, hv, het, hst,
              storeFind_empty_ne m id' id hne]
          · simp [syncCalStep, he, hc, hv, het, hst,
              storeFind_insertAdd_ne m id' id e hne]
    · simp [syncCalStep, he, hc, storeFind_insertAdd_ne m id' id e hne]

theorem syncCal_find_ne (batch : List GEvent) : ∀ (m : Store GEvent) (id : String),
    (∀ e ∈ batch, ∀ id', e.id = some id' → id' ≠ id) →
    storeFind (syncCal m batch) id = storeFind m id := by
  induction batch with
  | nil => intro m id _; rfl
  | cons e rest ih =>
    intro m id h
    have h1 : storeFind (syncCalStep m e) id = storeFind m id :=
      syncCalStep_find_ne m e id (h e (by simp))
    have h2 := ih (syncCalStep m e) id (fun e' he' => h e' (by simp [he']))
    simpa [syncCal] using h2.trans h1

theorem syncTaskStep_find_ne (m : Store GTask) (t : GTask) (id : String)
    (h : ∀ id', t.id = some id' → id' ≠ id) :
    storeFind (syncTaskStep m t) id = storeFind m id := by
  cases ht : t.id with
  | none => simp [syncTaskStep, ht]
  | some id' =>
    have hne : id' ≠ id := h id' ht
    by_cases hc : storeContains m id'
    · by_cases hd : t.deleted = some true
      · simp [syncTaskStep, ht, hc, hd, storeFind_empty_ne m id' id hne]
      · simp [syncTaskStep, ht, hc, hd, storeFind_update_ne m id' id t hne]
    · simp [syncTaskStep, ht, hc, storeFind_insertAdd_ne m id' id t hne]

theorem syncTaskRun_find_ne (post : List GTask) : ∀ (S S' : Store GTask) (id : String),
    syncTaskRun S post = some S' →
    (∀ t ∈ post, ∀ id', t.id = some id' → id' ≠ id) →
    storeFind S' id = storeFind S id := by
  induction post with
  | nil =>
    intro S S' id hrun _
    injection hrun with hrun
    rw [hrun]
  | cons t rest ih =>
    intro S S' id hrun h
    have hrun' : (match bump_position t with
        | none => none
        | some t' => syncTaskRun (syncTaskStep S t') rest) = some S' := hrun
    cases hb : bump_position t with
    | none => rw [hb] at hrun'; simp at hrun'
    | some t' =>
      rw [hb] at hrun'
      have hid : ∀ id', t'.id = some id' → id' ≠ id := by
        intro id' hid'
        exact h t (by simp) id' ((bump_position_id t t' hb).1 ▸ hid')
      have h1 : storeFind (syncTaskStep S t') id = storeFind S id :=
        syncTaskStep_find_ne S t' id hid
      have h2 := ih (syncTaskStep S t') S' id hrun' (fun t'' h'' => h t'' (by simp [h'']))
      exact h2.trans h1

/-- A fold over steps that each leave the state unchanged is the
identity. -/
theorem syncCal_id (S : Store GEvent) (l : List GEvent)
    (h : ∀ e ∈ l, syncCalStep S e = S) : syncCal S l = S := by
  induction l with
  | nil => rfl
  | cons e rest ih =>
    have h1 : syncCalStep S e = S := h e (by simp)
    show syncCal (syncCalStep S e) rest = S
    rw [h1]
    exact ih (fun e' he' => h e' (by simp [he']))

theorem syncTaskRun_id (S : Store GTask) (l : List GTask)
    (h : ∀ t ∈ l, ∃ t', bump_position t = some t' ∧ syncTaskStep S t' = S) :
    syncTaskRun S l = some S := by
  induction l with
  | nil => rfl
  | cons t rest ih =>
    obtain ⟨t', hb, hstep⟩ := h t (by simp)
    have hrun : syncTaskRun S (t :: rest) =
        match bump_position t with
        | none => none
        | some t2 => syncTaskRun (syncTaskStep S t2) rest := rfl
    rw [hrun, hb]
    show syncTaskRun (syncTaskStep S t') rest = some S
    rw [hstep]
    exact ih (fun t'' h'' => h t'' (by simp [h'']))

/-- The etag-skip of `OrgCalendar::sync`: an element whose id is stored
with an identical first-value etag leaves the store untouched. -/
theorem syncCalStep_skip (m : Store GEvent) (e : GEvent) (id : String) (v : GEvent)
    (he : e.id = some id) (hv : storeGetOne m id = some v)
    (het : v.etag = e.etag) : syncCalStep m e = m := by
  have hc : storeContains m id = true := by
    rw [storeContains_eq_find_isSome]
    unfold storeGetOne at hv
    cases hf : storeFind m id with
    | none => rw [hf] at hv; simp at hv
    | some r => simp [hf]
  simp [syncCalStep, he, hc, hv, het]

/-- Splitting a run of `OrgTaskList::sync` at an element. -/
theorem syncTaskRun_append (l1 : List GTask) : ∀ (m : Store GTask) (l2 : List GTask),
    syncTaskRun m (l1 ++ l2) =
      (syncTaskRun m l1).bind (fun m1 => syncTaskRun m1 l2) := by
  induction l1 with
  | nil => intro m l2; rfl
  | cons t rest ih =>
    intro m l2
    have hl : syncTaskRun m (t :: (rest ++ l2)) =
        match bump_position t with
        | none => none
        | some t2 => syncTaskRun (syncTaskStep m t2) (rest ++ l2) := rfl
    have hr : syncTaskRun m (t :: rest) =
        match bump_position t with
        | none => none
        | some t2 => syncTaskRun (syncTaskStep m t2) rest := rfl
    rw [List.cons_append, hl, hr]
    cases hb : bump_position t with
    | none => rfl
    | some t' => exact ih (syncTaskStep m t') l2

/-- Distinct ids in a batch: the elements around a split element never
carry its id. -/
theorem nodup_ids_split {α : Type} (f : α → Option String)
    (pre post : List α) (e : α) (id : String)
    (hnd : ((pre ++ e :: post).filterMap f).Nodup) (hid : f e = some id) :
    (∀ e' ∈ pre, ∀ id', f e' = some id' → id' ≠ id) ∧
    (∀ e' ∈ post, ∀ id', f e' = some id' → id' ≠ id) := by
  rw [List.filterMap_append, List.filterMap_cons, hid] at hnd
  have hdisj := (List.nodup_append.mp hnd).2.2
  have hpost : id ∉ post.filterMap f := by
    have := (List.nodup_append.mp hnd).2.1
    simpa using (List.nodup_cons.mp this).1
  have hpre : id ∉ pre.filterMap f := by
    intro hmem
    exact hdisj hmem (by simp)
  constructor
  · intro e' he' id' hid' heq
    subst heq
    exact hpre (List.mem_filterMap.mpr ⟨e', he', hid'⟩)
  · intro e' he' id' hid' heq
    subst heq
    exact hpost (List.mem_filterMap.mpr ⟨e', he', hid'⟩)

/-! ### Claim C3 — idempotence of `sync` -/

/-- C3, counterexample: calendar sync is not idempotent.  With `e1`
stored at etag `v1` and a batch carrying `e1` at etag `v2`, the update
path uses evmap `insert`, which *appends* to the value bag; `get_one`
keeps returning the old first value, so the second application appends
again and the store differs. -/
theorem c3_counterexample :
    syncCal [("e1", [⟨some "e1", some "v1", none, some "A"⟩])]
        [⟨some "e1", some "v2", none, some "B"⟩] =
      [("e1", [⟨some "e1", some "v1", none, some "A"⟩,
               ⟨some "e1", some "v2", none, some "B"⟩])] ∧
    syncCal (syncCal [("e1", [⟨some "e1", some "v1", none, some "A"⟩])]
          [⟨some "e1", some "v2", none, some "B"⟩])
        [⟨some "e1", some "v2", none, some "B"⟩] ≠
      syncCal [("e1", [⟨some "e1", some "v1", none, some "A"⟩])]
        [⟨some "e1", some "v2", none, some "B"⟩] := by
  constructor
  · rfl
  · decide

/-- C3, amended: `sync` applied twice equals `sync` applied once when
no batch element reaches the bag-appending or tombstone paths — for the
calendar store: batch ids are pairwise distinct and every id already
present is stored with an unchanged first-value etag (such elements are
skipped and not touched); for the task-list store (which has no etag
check): batch ids are pairwise distinct and no element carries the
tombstone marker.  In general idempotence fails (see the
counterexample). -/
theorem c3_sync_idempotent_amended
    (m : Store GEvent) (batch : List GEvent)
    (mt : Store GTask) (tbatch : List GTask)
    (hids : (batch.filterMap (fun e => e.id)).Nodup)
    (hskip : ∀ e ∈ batch, ∀ id, e.id = some id → storeContains m id = true →
      ∃ v, storeGetOne m id = some v ∧ v.etag = e.etag)
    (htids : (tbatch.filterMap (fun t => t.id)).Nodup)
    (htomb : ∀ t ∈ tbatch, t.deleted ≠ some true) :
    syncCal (syncCal m batch) batch = syncCal m batch ∧
    (∀ m1, syncTaskRun mt tbatch = some m1 → syncTaskRun m1 tbatch = some m1) := by
  constructor
  · apply syncCal_id
    intro e he
    obtain ⟨pre, post, hsplit⟩ := List.append_of_mem he
    cases he_id : e.id with
    | none => simp [syncCalStep, he_id]
    | some id =>
      subst hsplit
      obtain ⟨hpre, hpost⟩ := nodup_ids_split (fun e => e.id) pre post e id hids he_id
      have hS1 : syncCal m (pre ++ e :: post) =
          syncCal (syncCalStep (syncCal m pre) e) post := by
        rw [syncCal, List.foldl_append]
        rfl
      have hfind_pre : storeFind (syncCal m pre) id = storeFind m id :=
        syncCal_find_ne pre m id hpre
      by_cases hc : storeContains m id
      · obtain ⟨v, hv, hvet⟩ := hskip e (by simp) id he_id hc
        have hvSp : storeGetOne (syncCal m pre) id = some v := by
          unfold storeGetOne; rw [hfind_pre]; exact hv
        have hSe : syncCalStep (syncCal m pre) e = syncCal m pre :=
          syncCalStep_skip _ e id v he_id hvSp hvet
        have hfS1 : storeFind (syncCal m (pre ++ e :: post)) id = storeFind m id := by
          rw [hS1, hSe]
          exact (syncCal_find_ne post _ id hpost).trans hfind_pre
        have hvS1 : storeGetOne (syncCal m (pre ++ e :: post)) id = some v := by
          unfold storeGetOne; rw [hfS1]; exact hv
        exact syncCalStep_skip _ e id v he_id hvS1 hvet
      · have hcSp : storeContains (syncCal m pre) id = false := by
          rw [storeContains_eq_find_isSome, hfind_pre, ← storeContains_eq_find_isSome]
          simpa using hc
        have hSe : syncCalStep (syncCal m pre) e = storeInsertAdd (syncCal m pre) id e := by
          simp [syncCalStep, he_id, hcSp]
        have hfS1 : storeFind (syncCal m (pre ++ e :: post)) id = some (id, [e]) := by
          rw [hS1, hSe]
          exact (syncCal_find_ne post _ id hpost).trans
            (storeFind_insertAdd_absent _ id e hcSp)
        have hvS1 : storeGetOne (syncCal m (pre ++ e :: post)) id = some e := by
          unfold storeGetOne; rw [hfS1]; rfl
        exact syncCalStep_skip _ e id e he_id hvS1 rfl
  · intro m1 hrun1
    apply syncTaskRun_id
    intro t ht
    obtain ⟨pre, post, hsplit⟩ := List.append_of_mem ht
    subst hsplit
    rw [syncTaskRun_append] at hrun1
    cases hpre_run : syncTaskRun mt pre with
    | none => rw [hpre_run] at hrun1; simp at hrun1
    | some Sp =>
      rw [hpre_run] at hrun1
      simp only [Option.some_bind] at hrun1
      have hrun1' : (match bump_position t with
          | none => none
          | some t2 => syncTaskRun (syncTaskStep Sp t2) post) = some m1 := hrun1
      cases hb : bump_position t with
      | none => rw [hb] at hrun1'; simp at hrun1'
      | some t' =>
        rw [hb] at hrun1'
        refine ⟨t', rfl, ?_⟩
        cases ht_id : t.id with
        | none =>
          have ht'_id : t'.id = none := (bump_position_id t t' hb).1.trans ht_id
          simp [syncTaskStep, ht'_id]
        | some id =>
          obtain ⟨hpre2, hpost2⟩ := nodup_ids_split (fun t => t.id) pre post t id htids ht_id
          have ht'_id : t'.id = some id := (bump_position_id t t' hb).1.trans ht_id
          have ht'_del : ¬ t'.deleted = some true := by
            rw [(bump_position_id t t' hb).2]
            exact htomb t (by simp)
          have hrow : storeFind (syncTaskStep Sp t') id = some (id, [t']) := by
            by_cases hc : storeContains Sp id
            · have : syncTaskStep Sp t' = storeUpdate Sp id t' := by
                simp [syncTaskStep, ht'_id, hc, ht'_del]
              rw [this]
              exact storeFind_update_self Sp id t'
            · have : syncTaskStep Sp t' = storeInsertAdd Sp id t' := by
                simp [syncTaskStep, ht'_id, hc]
              rw [this]
              exact storeFind_insertAdd_absent Sp id t' (by simpa using hc)
          have hfm1 : storeFind m1 id = some (id, [t']) := by
            rw [syncTaskRun_find_ne post (syncTaskStep Sp t') m1 id hrun1'
              (fun t'' h'' => hpost2 t'' h''), hrow]
          have hcm1 : storeContains m1 id = true := by
            rw [storeContains_eq_find_isSome, hfm1]
            rfl
          have : syncTaskStep m1 t' = storeUpdate m1 id t' := by
            simp [syncTaskStep, ht'_id, hcm1, ht'_del]
          rw [this]
          exact storeUpdate_eq_self m1 id t' hfm1

/-- C3 witness: the amended idempotence at a concrete store and batch
with one fresh event id and one fresh non-tombstoned task. -/
theorem c3_sync_idempotent_amended_witness :
    syncCal (syncCal [("e1", [⟨some "e1", some "v1", none, some "A"⟩])]
        [⟨some "e2", some "v1", none, some "B"⟩])
      [⟨some "e2", some "v1", none, some "B"⟩] =
    syncCal [("e1", [⟨some "e1", some "v1", none, some "A"⟩])]
      [⟨some "e2", some "v1", none, some "B"⟩] ∧
    (∀ m1, syncTaskRun [] [⟨some "t1", some "v1", none, some "T", none⟩] = some m1 →
      syncTaskRun m1 [⟨some "t1", some "v1", none, some "T", none⟩] = some m1) :=
  c3_sync_idempotent_amended
    [("e1", [⟨some "e1", some "v1", none, some "A"⟩])]
    [⟨some "e2", some "v1", none, some "B"⟩]
    [] [⟨some "t1", some "v1", none, some "T", none⟩]
    (by decide)
    (by
      intro e he id hid hc
      have he' : e = ⟨some "e2", some "v1", none, some "B"⟩ := by
        simpa using he
      subst he'
      obtain rfl : "e2" = id := by injection hid
      exact absurd hc (by decide))
    (by decide) (by decide)

/-! ### Claim C4 — tombstoned elements and the live map -/

/-- C4, counterexample: a tombstoned event (`status = "cancelled"`)
whose id is *absent* from the live map is inserted by `sync` — the
tombstone check sits only on the present-id branch — so the id is
present afterwards, contradicting "absent regardless of whether the id
was present before". -/
theorem c4_counterexample :
    syncCal [] [⟨some "e1", some "v1", some "cancelled", some "A"⟩] =
      [("e1", [⟨some "e1", some "v1", some "cancelled", some "A"⟩])] ∧
    storeContains
      (syncCal [] [⟨some "e1", some "v1", some "cancelled", some "A"⟩]) "e1" = true := by
  constructor
  · rfl
  · decide

/-- C4, amended: a tombstoned batch element with an id behaves by
cases.  Calendar: if the id is present with a first-value etag
different from the element's, the id is removed; task list: if the id
is present, it is removed unconditionally; both stores: if the id is
absent, the element is inserted and the id is present afterwards. -/
theorem c4_tombstone_amended :
    (∀ (m : Store GEvent) (e : GEvent) (id : String) (v : GEvent),
      e.id = some id → e.status = some "cancelled" →
      storeGetOne m id = some v → v.etag ≠ e.etag →
      storeContains (syncCal m [e]) id = false) ∧
    (∀ (m : Store GTask) (t : GTask) (t' : GTask) (id : String),
      t.id = some id → t.deleted = some true →
      bump_position t = some t' → storeContains m id = true →
      syncTaskRun m [t] = some (storeEmpty m id) ∧
      storeContains (storeEmpty m id) id = false) ∧
    (∀ (m : Store GEvent) (e : GEvent) (id : String),
      e.id = some id → storeContains m id = false →
      storeContains (syncCal m [e]) id = true) := by
  refine ⟨?_, ?_, ?_⟩
  · intro m e id v hid hst hv hetag
    have hc : storeContains m id = true := by
      rw [storeContains_eq_find_isSome]
      unfold storeGetOne at hv
      cases hf : storeFind m id with
      | none => rw [hf] at hv; simp at hv
      | some r => simp [hf]
    have hstep : syncCalStep m e = storeEmpty m id := by
      simp [syncCalStep, hid, hc, hv, fun h => hetag h, hst]
    show storeContains (syncCalStep m e) id = false
    rw [hstep, storeContains_eq_find_isSome, storeFind_empty_self]
    rfl
  · intro m t t' id hid hdel hb hc
    have ht'_id : t'.id = some id := (bump_position_id t t' hb).1.trans hid
    have ht'_del : t'.deleted = some true := (bump_position_id t t' hb).2.trans hdel
    have hstep : syncTaskStep m t' = storeEmpty m id := by
      simp [syncTaskStep, ht'_id, hc, ht'_del]
    have hrun : syncTaskRun m [t] =
        match bump_position t with
        | none => none
        | some t2 => syncTaskRun (syncTaskStep m t2) [] := rfl
    constructor
    · rw [hrun, hb]
      show some (syncTaskStep m t') = _
      rw [hstep]
    · rw [storeContains_eq_find_isSome, storeFind_empty_self]
      rfl
  · intro m e id hid hc
    have hstep : syncCalStep m e = storeInsertAdd m id e := by
      simp [syncCalStep, hid, hc]
    show storeContains (syncCalStep m e) id = true
    rw [hstep, storeContains_eq_find_isSome,
      storeFind_insertAdd_absent m id e hc]
    rfl

/-- C4 witness: the amended tombstone behaviour at concrete stores —
a cancelled event with changed etag is dropped, a deleted task is
dropped, and a cancelled event with a fresh id is inserted. -/
theorem c4_tombstone_amended_witness :
    storeContains
      (syncCal [("e1", [⟨some "e1", some "v1", none, some "A"⟩])]
        [⟨some "e1", some "v2", some "cancelled", some "A"⟩]) "e1" = false ∧
    (syncTaskRun ([("t1", [⟨some "t1", some "v1", none, some "T", none⟩])] : Store GTask)
        [⟨some "t1", some "v2", some true, some "T", none⟩] =
      some (storeEmpty
        ([("t1", [⟨some "t1", some "v1", none, some "T", none⟩])] : Store GTask) "t1") ∧
      storeContains
        (storeEmpty
          ([("t1", [⟨some "t1", some "v1", none, some "T", none⟩])] : Store GTask) "t1")
        "t1" = false) ∧
    storeContains (syncCal [] [⟨some "e2", some "v1", some "cancelled", none⟩]) "e2" = true :=
  ⟨c4_tombstone_amended.1 [("e1", [⟨some "e1", some "v1", none, some "A"⟩])]
      ⟨some "e1", some "v2", some "cancelled", some "A"⟩ "e1"
      ⟨some "e1", some "v1", none, some "A"⟩ rfl rfl (by decide) (by decide),
    c4_tombstone_amended.2.1 [("t1", [⟨some "t1", some "v1", none, some "T", none⟩])]
      ⟨some "t1", some "v2", some true, some "T", none⟩
      ⟨some "t1", some "v2", some true, some "T", none⟩ "t1" rfl rfl (by decide) (by decide),
    c4_tombstone_amended.2.2 [] ⟨some "e2", some "v1", some "cancelled", none⟩ "e2"
      rfl (by decide)⟩

/-! ## Headline diff (src/org.rs)

A parsed headline carries an optional `id` property, its byte offset
`start` in the document, and its raw text.  `orgize` headlines are
`rowan` syntax nodes: equality and hashing are by node identity, so two
headlines from *different parses* are never equal even when their text
coincides; the `tree` tag (one value per parse) embeds that.  -/

structure HL where
  tree : Nat
  start : Nat
  id : Option String
  raw : String
  deriving DecidableEq, Repr

/-- `MaybeIdMap`: id-less headlines in the `fresh` set (a `HashSet`
keyed by node identity), id-bearing ones in `map` (`HashMap` keyed by
the id; a later insert of the same id replaces the entry). -/
structure MaybeIdMapL where
  fresh : List HL
  map : List (String × HL)
  deriving DecidableEq, Repr

/-- `HashMap::insert`: replace the entry of an existing key, append a
new one. -/
def assocInsert : List (String × HL) → String → HL → List (String × HL)
  | [], k, v => [(k, v)]
  | r :: rs, k, v => if r.1 = k then (k, v) :: rs else r :: assocInsert rs k v

/-- `MaybeIdMap::insert` (src/org.rs lines 119–124): with an id into
`map`, without into `fresh` (`HashSet::replace` of an element equal to
an existing one leaves the set's contents unchanged). -/
def mimInsert (m : MaybeIdMapL) (h : HL) : MaybeIdMapL :=
  match h.id with
  | some i => { m with map := assocInsert m.map i h }
  | none => { m with fresh := if m.fresh.contains h then m.fresh else m.fresh ++ [h] }

/-- `MaybeIdMap::from(&Org)`: a traversal inserting every headline in
document order. -/
def mimFrom (doc : List HL) : MaybeIdMapL := doc.foldl mimInsert ⟨[], []⟩

/-- `MaybeIdMap::len` = `fresh.len() + map.len()`. -/
def mimLen (m : MaybeIdMapL) : Nat := m.fresh.length + m.map.length

def mimGet (m : MaybeIdMapL) (k : String) : Option HL :=
  (m.map.find? (fun r => r.1 == k)).map Prod.snd

/-- The ids present in both maps (`self.map.keys().filter(...)` in
`diff`; the hash-map iteration order is arbitrary and the result is
sorted before use, so the association-list order stands in for it). -/
def intersectIds (old new : MaybeIdMapL) : List String :=
  (old.map.map Prod.fst).filter (fun k => (new.map.map Prod.fst).contains k)

/-- The permutation of `diff` (src/org.rs lines 155–161): the matched
ids sorted by their position in the new document, enumerated (giving
each id its new-order rank), then sorted by their position in the old
document.  The `map[k].start()` indexings cannot miss since every id is
matched. -/
def permutationOf (old new : MaybeIdMapL) : List (Nat × String) :=
  let inter := intersectIds old new
  let keyNew := fun k => (((mimGet new k).map HL.start).getD 0)
  let keyOld := fun k => (((mimGet old k).map HL.start).getD 0)
  let byNew := inter.insertionSort (fun a b => keyNew a ≤ keyNew b)
  byNew.enum.insertionSort (fun a b => keyOld a.2 ≤ keyOld b.2)

/-- `slice::partition_point` — binary probing, faithful to the stdlib
implementation (meaningful on partitioned input).  The fuel argument
only bounds the iteration count: the interval `hi − lo` shrinks at
every step, so fuel `hi − lo` always suffices. -/
def ppGo {α : Type} (a : List α) (d : α) (p : α → Bool) : Nat → Nat → Nat → Nat
  | 0, lo, _ => lo
  | fuel + 1, lo, hi =>
    if lo < hi then
      if p (a.getD ((lo + hi) / 2) d) then ppGo a d p fuel ((lo + hi) / 2 + 1) hi
      else ppGo a d p fuel lo ((lo + hi) / 2)
    else lo

def partitionPoint {α : Type} (a : List α) (d : α) (p : α → Bool) : Nat :=
  ppGo a d p a.length 0 a.length

/-- `slice::binary_search` (membership only) — binary probing, faithful
to the stdlib implementation (meaningful on sorted input); fuel as in
`ppGo`. -/
def bsGo (a : List Nat) (t : Nat) : Nat → Nat → Nat → Bool
  | 0, _, _ => false
  | fuel + 1, lo, hi =>
    if lo < hi then
      if a.getD ((lo + hi) / 2) 0 < t then bsGo a t fuel ((lo + hi) / 2 + 1) hi
      else if t < a.getD ((lo + hi) / 2) 0 then bsGo a t fuel lo ((lo + hi) / 2)
      else true
    else false

def binarySearchContains (a : List Nat) (t : Nat) : Bool :=
  bsGo a t a.length 0 a.length

/-- The state of the patience loop in `longest_increasing_subsequence`
(src/org.rs lines 162–193): `mel` is `min_ending_of_length`, a vector
of `(sequence index, element)`; `pred` is the `predecessor` vector over
sequence indices. -/
structure LisState where
  mel : List (Nat × (Nat × String))
  pred : List (Option Nat)
  deriving Repr

/-- One iteration of the patience loop for element `x` at sequence
index `i`.  Note the source's `predecessor[i] = predecessor[j]`: `j` is
a position in `mel` but is used to index the sequence-indexed
`predecessor` array. -/
def lisStep (st : LisState) (i : Nat) (x : Nat × String) : LisState :=
  match st.mel.getLast? with
  | none => st
  | some (prevI, prevLongest) =>
    if prevLongest.1 < x.1 then
      { mel := st.mel ++ [(i, x)], pred := st.pred.set i (some prevI) }
    else
      let j := partitionPoint st.mel (0, (0, "")) (fun y => y.2.1 < x.1)
      { mel := st.mel.set j (i, x), pred := st.pred.set i (st.pred.getD j none) }

/-- The reconstruction walk `while let Some(prev_i) = predecessor[i]`.
Fuel bounds the walk; predecessor indices strictly decrease, so
`seq.length` fuel always suffices. -/
def lisChain (seq : List (Nat × String)) (pred : List (Option Nat)) :
    Nat → Nat → List Nat
  | _, 0 => []
  | i, fuel + 1 =>
    match pred.getD i none with
    | none => [(seq.getD i (0, "")).1]
    | some prevI => (seq.getD i (0, "")).1 :: lisChain seq pred prevI fuel

/-- `longest_increasing_subsequence` over the new-order ranks of the
permutation; `none` models the `iter.next().unwrap()` panic on an
empty sequence. -/
def longest_increasing_subsequence (seq : List (Nat × String)) : Option (List Nat) :=
  match seq with
  | [] => none
  | x0 :: rest =>
    let init : LisState :=
      { mel := [(0, x0)], pred := List.replicate seq.length none }
    let final := (rest.enum.map (fun p => (p.1 + 1, p.2))).foldl
      (fun st p => lisStep st p.1 p.2) init
    match final.mel.getLast? with
    | none => none
    | some (i, _) => some ((lisChain seq final.pred i seq.length).reverse)

structure MoveL where
  id : String
  before : Option String
  after : Option String
  deriving DecidableEq, Repr

def findByRank (perm : List (Nat × String)) (t : Nat) : Option String :=
  (perm.find? (fun p => p.1 == t)).map Prod.snd

/-- The move-extraction loop of `diff` (src/org.rs lines 195–213):
every permutation element whose rank binary-search misses in the kept
subsequence becomes a move, with `before`/`after` the neighbours of
its insertion point; its rank is then inserted to keep later anchors
valid.  (`findByRank … |>.getD ""` stands for the
`find(...).unwrap()` of the source — the rank always belongs to the
permutation.) -/
def movesLoop (perm : List (Nat × String)) :
    List (Nat × String) → List Nat → List MoveL
  | [], _ => []
  | (i, id) :: rest, lis =>
    if binarySearchContains lis i then movesLoop perm rest lis
    else
      let j := partitionPoint lis 0 (fun x => x < i)
      let mv : MoveL :=
        { id := id
          before :=
            match j with
            | 0 => none
            | jj + 1 => (lis[jj]?).map (fun t => (findByRank perm t).getD "")
          after := (lis[j]?).map (fun t => (findByRank perm t).getD "") }
      mv :: movesLoop perm rest (List.insertIdx j i lis)

/-- The `moves` component of `MaybeIdMap::diff`; `none` models the
panic inside the LIS routine when no id is matched. -/
def diffMoves (old new : MaybeIdMapL) : Option (List MoveL) :=
  let perm := permutationOf old new
  (longest_increasing_subsequence perm).map (fun lis => movesLoop perm perm lis)

/-! Sanity checks of the diff embedding on the spec's S5 scenario and
on the permutation `[1, 0, 2, 4, 3]`. -/

example :
    diffMoves
      (mimFrom [⟨0, 0, some "t1", "a"⟩, ⟨0, 1, some "t2", "b"⟩, ⟨0, 2, some "t3", "c"⟩])
      (mimFrom [⟨1, 0, some "t3", "c"⟩, ⟨1, 1, some "t1", "a"⟩, ⟨1, 2, some "t2", "b"⟩]) =
    some [⟨"t3", none, some "t1"⟩] := rfl

/-- Strictly increasing check for an index sequence. -/
def isStrictIncr : List Nat → Bool
  | [] => true
  | [_] => true
  | x :: y :: rest => x < y && isStrictIncr (y :: rest)

/-- Brute-force length of a longest strictly increasing subsequence,
used to judge the subsequence the routine keeps. -/
def maxIncSubseqLen (l : List Nat) : Nat :=
  ((l.sublists.filter isStrictIncr).map List.length).foldr max 0

example :
    permutationOf
      (mimFrom [⟨0, 0, some "t1", "a"⟩, ⟨0, 1, some "t2", "b"⟩, ⟨0, 2, some "t3", "c"⟩,
        ⟨0, 3, some "t4", "d"⟩, ⟨0, 4, some "t5", "e"⟩])
      (mimFrom [⟨1, 0, some "t2", "b"⟩, ⟨1, 1, some "t1", "a"⟩, ⟨1, 2, some "t3", "c"⟩,
        ⟨1, 3, some "t5", "e"⟩, ⟨1, 4, some "t4", "d"⟩]) =
    [(1, "t1"), (0, "t2"), (2, "t3"), (4, "t4"), (3, "t5")] := rfl

/-! ## fsync (src/fuse.rs lines 457–665)

The handler looks up the snapshot row of `(ino, pid)`, parses the
written buffer (via the external org parser — here both documents come
in already parsed), computes the diff, asserts the mass-delete guard,
and only then emits write commands and clears the pending sideband.
The computation panics inside the diff's LIS routine when no id is
matched (`lisPanic`), or at the `assert!(removed.len() < n_old)` guard
(`guardPanic`); in both cases nothing is emitted and the store is
untouched. -/

inductive WCmd where
  | delete (id : String)
  | move (id : String) (pred succ : Option String)
  | patch (id : String) (raw : String)
  | insert (raw : String)
  deriving DecidableEq, Repr

inductive FsyncResult where
  | lisPanic
  | guardPanic
  | ok (cmds : List WCmd)
  deriving DecidableEq, Repr

/-- The task-list flavour of `fsync` (the calendar flavour differs only
in not emitting move commands).  Command order follows the source:
deletes for removed ids, moves, patches for changed ids, inserts for
fresh headlines. -/
def fsyncModel (oldDoc newDoc : List HL) : FsyncResult :=
  let old := mimFrom oldDoc
  let new := mimFrom newDoc
  let nOld := mimLen old
  match diffMoves old new with
  | none => .lisPanic
  | some moves =>
    let newKeys := new.map.map Prod.fst
    let removedMap := old.map.filter (fun r => !newKeys.contains r.1)
    let removedFresh := old.fresh.filter (fun h => !new.fresh.contains h)
    let addedFresh := new.fresh.filter (fun h => !old.fresh.contains h)
    let inter := intersectIds old new
    let changed := inter.filter (fun k =>
      match mimGet old k, mimGet new k with
      | some o, some n => o.raw.trim != n.raw.trim
      | _, _ => false)
    if removedFresh.length + removedMap.length < nOld then
      .ok ((removedMap.map (fun r => WCmd.delete r.1)) ++
        (moves.map (fun mv => WCmd.move mv.id mv.before mv.after)) ++
        (changed.map (fun k => WCmd.patch k (((mimGet new k).map HL.raw).getD ""))) ++
        (addedFresh.map (fun h => WCmd.insert h.raw)))
    else .guardPanic

/-- The commands an fsync delivers to the reconciler channel: none when
the handler aborts. -/
def emittedCommands : FsyncResult → Option (List WCmd)
  | .ok cmds => some cmds
  | _ => none

/-! ### Helper lemmas: maps built from documents -/

theorem assocInsert_keys (rs : List (String × HL)) (k k' : String) (v : HL) :
    k' ∈ (assocInsert rs k v).map Prod.fst →
    k' = k ∨ k' ∈ rs.map Prod.fst := by
  induction rs with
  | nil => intro h; simp [assocInsert] at h; exact Or.inl h
  | cons r rest ih =>
    intro h
    by_cases hk : r.1 = k
    · simp only [assocInsert, if_pos hk] at h
      rcases List.mem_map.mp h with ⟨p, hp, hfst⟩
      rcases List.mem_cons.mp hp with h' | h'
      · subst h'; exact Or.inl hfst.symm
      · exact Or.inr (by

          subst hk
          rcases List.mem_map.mp (List.mem_map.mpr ⟨p, h', hfst⟩) with ⟨q, hq, hq2⟩
          exact List.mem_map.mpr ⟨q, List.mem_cons.mpr (Or.inr hq), hq2⟩)
    · simp only [assocInsert, if_neg hk] at h
      rcases List.mem_map.mp h with ⟨p, hp, hfst⟩
      rcases List.mem_cons.mp hp with h' | h'
      · subst h'; exact Or.inr (List.mem_map.mpr ⟨p, by simp, hfst⟩)
      · rcases ih (List.mem_map.mpr ⟨p, h', hfst⟩) with h'' | h''
        · exact Or.inl h''
        · rcases List.mem_map.mp h'' with ⟨q, hq, hq2⟩
          exact Or.inr (List.mem_map.mpr ⟨q, List.mem_cons.mpr (Or.inr hq), hq2⟩)

/-- Every key of the map built from a document is the id of one of its
headlines. -/
theorem mimFrom_keys : ∀ (doc : List HL) (m0 : MaybeIdMapL) (k : String),
    k ∈ (doc.foldl mimInsert m0).map.map Prod.fst →
    k ∈ m0.map.map Prod.fst ∨ ∃ h ∈ doc, h.id = some k := by
  intro doc
  induction doc with
  | nil => intro m0 k h; exact Or.inl h
  | cons hd rest ih =>
    intro m0 k h
    rcases ih (mimInsert m0 hd) k h with h' | h'
    · cases hid : hd.id with
      | none =>
        simp only [mimInsert, hid] at h'
        exact Or.inl h'
      | some i =>
        simp only [mimInsert, hid] at h'
        rcases assocInsert_keys m0.map i k hd h' with rfl | h''
        · exact Or.inr ⟨hd, by simp, hid⟩
        · exact Or.inl h''
    · obtain ⟨h1, hmem, hidq⟩ := h'
      exact Or.inr ⟨h1, by simp [hmem], hidq⟩

/-- A document with no id-bearing headline builds an empty map. -/
theorem mimFrom_no_ids : ∀ (doc : List HL) (m0 : MaybeIdMapL),
    (∀ h ∈ doc, h.id = none) →
    (doc.foldl mimInsert m0).map = m0.map := by
  intro doc
  induction doc with
  | nil => intro m0 _; rfl
  | cons hd rest ih =>
    intro m0 hids
    have h1 : (mimInsert m0 hd).map = m0.map := by
      simp [mimInsert, hids hd (by simp)]
    show (rest.foldl mimInsert (mimInsert m0 hd)).map = m0.map
    rw [ih (mimInsert m0 hd) (fun h hm => hids h (by simp [hm])), h1]

/-- When no id is matched between the two documents, the diff panics in
the LIS routine (`iter.next().unwrap()` on the empty permutation). -/
theorem diffMoves_empty_intersection (old new : MaybeIdMapL)
    (hinter : intersectIds old new = []) : diffMoves old new = none := by
  unfold diffMoves permutationOf
  rw [hinter]
  rfl

/-! ### Claim C2 — the mass-delete save emits nothing -/

/-- C2: when a save would remove every known id (no id of the snapshot
survives in the written buffer) and the snapshot held at least one
entry, the fsync aborts before reaching the command loop: no write
command is emitted to the reconciler channel, and the store (including
its pending sideband, cleared only after the guard) is untouched, so
the next render shows the old contents.  (The abort happens in the LIS
routine, on the empty matched-id permutation, before the
`assert!(removed.len() < n_old)` guard.) -/
theorem c2_mass_delete_guard (oldDoc newDoc : List HL)
    (_hnonempty : 1 ≤ mimLen (mimFrom oldDoc))
    (hdisj : ∀ h ∈ oldDoc, ∀ i, h.id = some i → ∀ h' ∈ newDoc, h'.id ≠ some i) :
    fsyncModel oldDoc newDoc = .lisPanic ∧
    emittedCommands (fsyncModel oldDoc newDoc) = none := by
  have hinter : intersectIds (mimFrom oldDoc) (mimFrom newDoc) = [] := by
    unfold intersectIds
    rw [List.filter_eq_nil_iff]
    intro k hk
    rcases mimFrom_keys oldDoc ⟨[], []⟩ k hk with h | ⟨h, hmem, hid⟩
    · simp at h
    · simp only [Bool.not_eq_true]
      rw [← Bool.not_eq_true]
      intro hcont
      have hk' : k ∈ (mimFrom newDoc).map.map Prod.fst := by
        simpa using hcont
      rcases mimFrom_keys newDoc ⟨[], []⟩ k hk' with h' | ⟨h', hmem', hid'⟩
      · simp at h'
      · exact hdisj h hmem k hid h' hmem' hid'
  have hmoves := diffMoves_empty_intersection _ _ hinter
  have hres : fsyncModel oldDoc newDoc = .lisPanic := by
    simp only [fsyncModel, hmoves]
  exact ⟨hres, by rw [hres]; rfl⟩

/-- C2 witness: a snapshot with one id-bearing headline and a buffer
that drops it — the fsync aborts with nothing emitted. -/
theorem c2_mass_delete_guard_witness :
    fsyncModel [⟨0, 0, some "e1", "x"⟩] [⟨1, 0, none, "y"⟩] = .lisPanic ∧
    emittedCommands (fsyncModel [⟨0, 0, some "e1", "x"⟩] [⟨1, 0, none, "y"⟩]) = none :=
  c2_mass_delete_guard [⟨0, 0, some "e1", "x"⟩] [⟨1, 0, none, "y"⟩]
    (by decide) (by decide)

/-! ### Claim C10 — fsync on an id-less snapshot -/

/-- C10, counterexample: with a snapshot holding a single id-less
headline and a buffer that deletes nothing (the same text re-parsed),
the fsync aborts — but in the `unwrap` of the LIS routine on the empty
matched-id permutation, which is reached *before* the
`assert!(removed.len() < n_old)` guard; the abort is not a failure of
that guard assertion. -/
theorem c10_counterexample :
    fsyncModel [⟨0, 0, none, "x"⟩] [⟨1, 0, none, "x"⟩] = .lisPanic ∧
    fsyncModel [⟨0, 0, none, "x"⟩] [⟨1, 0, none, "x"⟩] ≠ .guardPanic := by
  have h1 : fsyncModel [⟨0, 0, none, "x"⟩] [⟨1, 0, none, "x"⟩] = .lisPanic := rfl
  refine ⟨h1, ?_⟩
  rw [h1]
  decide

/-- C10, amended: if the snapshot captured for a row contains no
id-bearing headline, every fsync from that pid on that inode aborts
the handler — via the `unwrap` panic in the LIS computation on the
empty matched-id permutation, reached before the
`removed.len() < n_old` guard (which would also fail, `0 < 0`, were it
reached) — whatever the saved buffer contains; such an fsync never
completes normally and never emits a command. -/
theorem c10_empty_snapshot_fsync_aborts (oldDoc newDoc : List HL)
    (hnoids : ∀ h ∈ oldDoc, h.id = none) :
    fsyncModel oldDoc newDoc = .lisPanic := by
  have hmap : (mimFrom oldDoc).map = [] := mimFrom_no_ids oldDoc ⟨[], []⟩ hnoids
  have hinter : intersectIds (mimFrom oldDoc) (mimFrom newDoc) = [] := by
    unfold intersectIds
    rw [hmap]
    rfl
  have hmoves := diffMoves_empty_intersection _ _ hinter
  simp only [fsyncModel, hmoves]

/-- C10 witness: the amended theorem on an empty-file snapshot against
an arbitrary edited buffer. -/
theorem c10_empty_snapshot_fsync_aborts_witness :
    fsyncModel [⟨0, 0, none, "x"⟩] [⟨1, 0, none, "edited"⟩, ⟨1, 1, some "n", "new"⟩] =
      .lisPanic :=
  c10_empty_snapshot_fsync_aborts [⟨0, 0, none, "x"⟩]
    [⟨1, 0, none, "edited"⟩, ⟨1, 1, some "n", "new"⟩] (by decide)

/-! ### Claim C6 — moves and the longest increasing subsequence -/

/-- C6, counterexample: for five tasks reordered from `t1 t2 t3 t4 t5`
to `t2 t1 t3 t5 t4` the matched-id permutation carries the new-order
ranks `[1, 0, 2, 4, 3]`, whose longest increasing subsequences have
three elements (e.g. ranks 1, 2, 3), so "moved exactly when not on a
longest increasing subsequence" would put exactly `5 − 3 = 2` ids in
`moves`.  The predecessor reconstruction, however, reads
`predecessor[j]` with `j` a `min_ending_of_length` position, keeps only
the non-maximal subsequence `[0, 3]`, and the diff reports three
moves. -/
theorem c6_counterexample :
    diffMoves
      (mimFrom [⟨0, 0, some "t1", "a"⟩, ⟨0, 1, some "t2", "b"⟩, ⟨0, 2, some "t3", "c"⟩,
        ⟨0, 3, some "t4", "d"⟩, ⟨0, 4, some "t5", "e"⟩])
      (mimFrom [⟨1, 0, some "t2", "b"⟩, ⟨1, 1, some "t1", "a"⟩, ⟨1, 2, some "t3", "c"⟩,
        ⟨1, 3, some "t5", "e"⟩, ⟨1, 4, some "t4", "d"⟩]) =
    some [⟨"t1", some "t2", some "t5"⟩, ⟨"t3", some "t1", some "t5"⟩,
      ⟨"t4", some "t5", none⟩] ∧
    maxIncSubseqLen [1, 0, 2, 4, 3] = 3 ∧
    ((diffMoves
      (mimFrom [⟨0, 0, some "t1", "a"⟩, ⟨0, 1, some "t2", "b"⟩, ⟨0, 2, some "t3", "c"⟩,
        ⟨0, 3, some "t4", "d"⟩, ⟨0, 4, some "t5", "e"⟩])
      (mimFrom [⟨1, 0, some "t2", "b"⟩, ⟨1, 1, some "t1", "a"⟩, ⟨1, 2, some "t3", "c"⟩,
        ⟨1, 3, some "t5", "e"⟩, ⟨1, 4, some "t4", "d"⟩])).map List.length ≠
      some (5 - maxIncSubseqLen [1, 0, 2, 4, 3])) := by
  refine ⟨rfl, rfl, ?_⟩
  intro h
  rw [show maxIncSubseqLen [1, 0, 2, 4, 3] = 3 from rfl] at h
  simp only [show (diffMoves
      (mimFrom [⟨0, 0, some "t1", "a"⟩, ⟨0, 1, some "t2", "b"⟩, ⟨0, 2, some "t3", "c"⟩,
        ⟨0, 3, some "t4", "d"⟩, ⟨0, 4, some "t5", "e"⟩])
      (mimFrom [⟨1, 0, some "t2", "b"⟩, ⟨1, 1, some "t1", "a"⟩, ⟨1, 2, some "t3", "c"⟩,
        ⟨1, 3, some "t5", "e"⟩, ⟨1, 4, some "t4", "d"⟩])) =
    some [⟨"t1", some "t2", some "t5"⟩, ⟨"t3", some "t1", some "t5"⟩,
      ⟨"t4", some "t5", none⟩] from rfl, Option.map_some'] at h
  simp at h

/-- C6, amended: moves are computed over the permutation mapping old
document order to new document order, but the increasing subsequence
the patience reconstruction keeps is not always longest (its
`predecessor[j]` reads a move-array slot by a pile position); a matched
headline is reported as a move exactly when its rank is not on the
*kept* subsequence.  In particular the three-headline example of the
claim stands: for old order `t1 t2 t3` and new order `t3 t1 t2`, diff
returns exactly one move `{id: t3, before: none, after: t1}`, and the
kept subsequence there is a genuine longest one (ranks 1, 2 of
`[1, 2, 0]`, so `3 − 2 = 1` move). -/
theorem c6_moves_example :
    diffMoves
      (mimFrom [⟨0, 0, some "t1", "a"⟩, ⟨0, 1, some "t2", "b"⟩, ⟨0, 2, some "t3", "c"⟩])
      (mimFrom [⟨1, 0, some "t3", "c"⟩, ⟨1, 1, some "t1", "a"⟩, ⟨1, 2, some "t2", "b"⟩]) =
    some [⟨"t3", none, some "t1"⟩] ∧
    (diffMoves
      (mimFrom [⟨0, 0, some "t1", "a"⟩, ⟨0, 1, some "t2", "b"⟩, ⟨0, 2, some "t3", "c"⟩])
      (mimFrom [⟨1, 0, some "t3", "c"⟩, ⟨1, 1, some "t1", "a"⟩, ⟨1, 2, some "t2", "b"⟩])).map
        List.length =
      some (3 - maxIncSubseqLen [1, 2, 0]) := by
  constructor
  · rfl
  · rw [show maxIncSubseqLen [1, 2, 0] = 2 from rfl]
    rfl
